import Mathlib

/-!
Verification of the MBE container codec of this repository: the generator
`generateMbeFile` (src/services/mbeGenerator.ts) and the parser
`parseMbeFile` (src/services/mbeParser.ts), together with the model types
(src/types.ts) and format constants (src/constants.ts).

Embedding conventions.
* A byte buffer (JS `ArrayBuffer` / `Uint8Array` / `DataView`) is a
  `List Nat`, one entry per byte; all multi-byte integers are
  little-endian, as in the source (`setUint32(..., true)` etc.).
* A JavaScript string is modelled by its UTF-8 byte sequence
  (`List Nat`): `TextEncoder.encode` is the identity of this
  representation, and `TextDecoder` composed with the source's
  first-NUL truncation is `List.takeWhile (· != 0)`.
* `DataView` reads that the source performs without a bounds check throw
  a `RangeError` when out of bounds; the parser is therefore embedded in
  `Except ParseErr`, with `ParseErr.rangeError` for those aborts.
* The parser's `row-i-r-Date.now()` row identity token has no wire
  meaning; the embedding materialises it as `""` (claims' equivalences
  ignore it).
-/

/-- Little-endian value of a byte list: `bytesToNat [b0, b1, ...] = b0 + 256*(b1 + ...)`. -/
def bytesToNat : List Nat → Nat
  | [] => 0
  | b :: t => b + 256 * bytesToNat t

/-- The four bytes written by `DataView.setUint32(_, v, true)`: little-endian,
wrapping modulo `2 ^ 32`. -/
def u32LE (v : Nat) : List Nat :=
  [v % 256, v / 256 % 256, v / 65536 % 256, v / 16777216 % 256]

/-- Signed reinterpretation of a 32-bit unsigned value (`DataView.getInt32`). -/
def toI32 (u : Nat) : Int :=
  if u < 2 ^ 31 then (u : Int) else (u : Int) - 2 ^ 32

/-- The four bytes written by `DataView.setInt32(_, v, true)`: two's-complement
little-endian of the low 32 bits. -/
def i32LE (v : Int) : List Nat :=
  u32LE (v % 2 ^ 32).toNat

/-- `EXPA_MAGIC_BYTES` from src/constants.ts. -/
def expaMagic : List Nat := [69, 88, 80, 65]

/-- `CHNK_MAGIC_BYTES` from src/constants.ts. -/
def chnkMagic : List Nat := [67, 72, 78, 75]

/-- `ColumnType` from src/types.ts (wire values 2, 7, 8). -/
inductive ColumnType
  | INT
  | STR
  | STRID
deriving DecidableEq

/-- The numeric wire tag of a column type (`INT = 2`, `STR = 7`, `STRID = 8`). -/
def ColumnType.wire : ColumnType → Nat
  | .INT => 2
  | .STR => 7
  | .STRID => 8

/-- Width in bytes of a structural cell of this column type
(4 for `INT`, 8 for `STR`/`STRID`), as used throughout the generator. -/
def ColumnType.width : ColumnType → Nat
  | .INT => 4
  | _ => 8

/-- The `typeName` labels `'int' | 'str' | 'strID'` from src/types.ts. -/
inductive TypeNameT
  | int
  | str
  | strID
deriving DecidableEq

/-- The canonical `typeName` of a column type, as assigned by the parser's switch. -/
def ColumnType.typeName : ColumnType → TypeNameT
  | .INT => .int
  | .STR => .str
  | .STRID => .strID

/-- `MbeColumn` from src/types.ts. -/
structure MbeColumn where
  type : ColumnType
  typeName : TypeNameT
deriving DecidableEq

/-- A cell value (`number | string` in src/types.ts): an integer or a string
given by its UTF-8 bytes. -/
inductive CellValue
  | intVal : Int → CellValue
  | strVal : List Nat → CellValue
deriving DecidableEq

/-- `MbeRow` from src/types.ts: a UI identity token and the cells. -/
structure MbeRow where
  id : String
  cells : List CellValue
deriving DecidableEq

/-- `MbeSheet` from src/types.ts. -/
structure MbeSheet where
  name : List Nat
  columns : List MbeColumn
  rows : List MbeRow
  parsedExpaAreaSizePerRow : Nat
deriving DecidableEq

/-- `MbeFile` from src/types.ts. -/
structure MbeFile where
  sheets : List MbeSheet
deriving DecidableEq

/-- UTF-8 bytes of the string `"undefined"`, the result of `String(undefined)`
when a row has fewer cells than its sheet has columns. -/
def undefinedBytes : List Nat := [117, 110, 100, 101, 102, 105, 110, 101, 100]

/-- Value of a decimal digit string (helper for the `Number(string)` coercion). -/
def decValue (s : List Nat) : Nat :=
  s.foldl (fun a b => a * 10 + (b - 48)) 0

/-- JS `Number(cellValue)` as consumed by `DataView.setInt32` (ToIntegerOrInfinity
sends `NaN` to 0): numbers pass through, canonical decimal digit strings parse,
any other string and a missing cell (`undefined`, giving `NaN`) yield 0. -/
def jsCellNumber : Option CellValue → Int
  | none => 0
  | some (.intVal v) => v
  | some (.strVal s) =>
    if s ≠ [] ∧ ∀ b ∈ s, 48 ≤ b ∧ b ≤ 57 then (decValue s : Int) else 0

/-- JS `String(cellValue)`: strings pass through, integers print in decimal,
a missing cell (`undefined`) prints as `"undefined"`. -/
def jsCellString : Option CellValue → List Nat
  | none => undefinedBytes
  | some (.strVal s) => s
  | some (.intVal v) => (toString v).toList.map Char.toNat

/-- `calculatedExpaAreaSizePerRow` of the generator's phase 1: the sum of the
per-column cell widths (4 for `INT`, 8 otherwise). -/
def rowStride : List MbeColumn → Nat
  | [] => 0
  | c :: cs => c.type.width + rowStride cs

/-- The shared padding rule of the generator (sheet names and CHNK bodies):
try 2, 3, 4 then 5 total NUL bytes, keeping the first count that makes
`afterBase + L + totalNulls` a multiple of 4; the loop's initial value 2
stands when no iteration fires. `afterBase` is the writer offset of the
first data byte (offset of the length field plus 4, or of the CHNK entry
header plus 8); `L` is the raw encoded byte length. -/
def chooseNulls (afterBase L : Nat) : Nat :=
  if (afterBase + L + 2) % 4 = 0 then 2
  else if (afterBase + L + 3) % 4 = 0 then 3
  else if (afterBase + L + 4) % 4 = 0 then 4
  else if (afterBase + L + 5) % 4 = 0 then 5
  else 2

/-- The sheet-name field written by the generator at writer offset `off`:
a u32 stored length `L + N` followed by the name bytes and `N` NUL bytes. -/
def sheetNameField (off : Nat) (nameBytes : List Nat) : List Nat :=
  u32LE (nameBytes.length + chooseNulls (off + 4) nameBytes.length) ++
    nameBytes ++ List.replicate (chooseNulls (off + 4) nameBytes.length) 0

/-- One sheet header as written by the generator's sub-phase 2.2 at writer
offset `off`: padded name field, u32 column count, u32 column-type tags,
u32 `expaAreaSizePerRow` (the recomputed natural stride), u32 row count. -/
def sheetHeaderBytes (off : Nat) (s : MbeSheet) : List Nat :=
  sheetNameField off s.name ++ u32LE s.columns.length ++
    (s.columns.map (fun c => u32LE c.type.wire)).flatten ++
    u32LE (rowStride s.columns) ++ u32LE s.rows.length

/-- All sheet headers in declaration order, starting at writer offset `off`
(8 in `generateMbeFile`, after the magic and sheet count). -/
def headersBytes : Nat → List MbeSheet → List Nat
  | _, [] => []
  | off, s :: ss =>
    sheetHeaderBytes off s ++ headersBytes (off + (sheetHeaderBytes off s).length) ss

/-- The generator's sub-phase 2.1 dry run: the preliminary writer's offset after
simulating the headers of `ss` starting from offset `off`. Each simulated sheet
advances by 4 (name length) + padded name length + 4 (column count) +
4 × columns + 4 (area size) + 4 (row count). -/
def prelimFold : Nat → List MbeSheet → Nat
  | off, [] => off
  | off, s :: ss =>
    prelimFold
      (off + 4 + (s.name.length + chooseNulls (off + 4) s.name.length) + 4 +
        4 * s.columns.length + 4 + 4) ss

/-- `totalHeaderSize` / `expaDataMasterStartOffset` of the generator: the
preliminary writer's offset after the EXPA magic, the sheet count and all
simulated sheet headers. -/
def totalHeaderSize (f : MbeFile) : Nat :=
  prelimFold 8 f.sheets

/-- One structural cell: an `INT` cell is the little-endian i32 of the coerced
value, a `STR`/`STRID` cell is an 8-byte zero placeholder. -/
def cellBytes (t : ColumnType) (cell : Option CellValue) : List Nat :=
  match t with
  | .INT => i32LE (jsCellNumber cell)
  | _ => List.replicate 8 0

/-- One structural row: cells written in column order, indexing the row's cell
list by column position (`row.cells[c]`). -/
def rowStructBytes : List MbeColumn → List CellValue → List Nat
  | [], _ => []
  | col :: cs, cells => cellBytes col.type cells.head? ++ rowStructBytes cs cells.tail

/-- The structural rows of one sheet, in row order. -/
def rowsStructBytes (cols : List MbeColumn) : List MbeRow → List Nat
  | [] => []
  | r :: rs => rowStructBytes cols r.cells ++ rowsStructBytes cols rs

/-- The structural blocks of all sheets, packed back-to-back in order. -/
def structBytes : List MbeSheet → List Nat
  | [] => []
  | s :: ss => rowsStructBytes s.columns s.rows ++ structBytes ss

/-- CHNK collection over one row (generator sub-phase 2.2): for each
`STR`/`STRID` column whose coerced value is a non-empty string, record the
cell's absolute structural offset and the encoded bytes; advance the tracked
offset by the column width. -/
def collectRowCells : List MbeColumn → List CellValue → Nat → List (Nat × List Nat)
  | [], _, _ => []
  | col :: cs, cells, off =>
    (match col.type with
     | .INT => []
     | _ =>
       if jsCellString cells.head? = [] then []
       else [(off, jsCellString cells.head?)]) ++
      collectRowCells cs cells.tail (off + col.type.width)

/-- CHNK collection over the rows of one sheet: row `r` starts at
`sheetStart + r * stride`. -/
def collectRows (cols : List MbeColumn) : List MbeRow → Nat → Nat → List (Nat × List Nat)
  | [], _, _ => []
  | r :: rs, off, stride =>
    collectRowCells cols r.cells off ++ collectRows cols rs (off + stride) stride

/-- CHNK collection over all sheets: sheet `i + 1`'s structural data starts
`stride * rowCount` bytes after sheet `i`'s. -/
def collectSheets : List MbeSheet → Nat → List (Nat × List Nat)
  | [], _ => []
  | s :: ss, base =>
    collectRows s.columns s.rows base (rowStride s.columns) ++
      collectSheets ss (base + rowStride s.columns * s.rows.length)

/-- `chnkRawStrings` of the generator before sorting: targets are absolute file
offsets based at `expaDataMasterStartOffset` (the dry-run header size). -/
def collectEntries (f : MbeFile) : List (Nat × List Nat) :=
  collectSheets f.sheets (totalHeaderSize f)

/-- Ascending insertion into a list sorted by target offset. -/
def insertEntry (e : Nat × List Nat) : List (Nat × List Nat) → List (Nat × List Nat)
  | [] => [e]
  | x :: xs => if e.1 ≤ x.1 then e :: x :: xs else x :: insertEntry e xs

/-- `chnkRawStrings.sort((a, b) => a.targetExpaAbsoluteFileOffset - b...)`:
sort by target offset ascending. -/
def sortEntries : List (Nat × List Nat) → List (Nat × List Nat)
  | [] => []
  | e :: es => insertEntry e (sortEntries es)

/-- The string-pool entries in the order the generator emits them. -/
def poolEntries (f : MbeFile) : List (Nat × List Nat) :=
  sortEntries (collectEntries f)

/-- One emitted CHNK entry at writer offset `off`: u32 target offset, u32
stored length `L + N`, then the string bytes and `N` NUL padding bytes,
`N` chosen against the live writer offset plus the 8-byte entry header. -/
def chnkEntryBytes (off : Nat) (e : Nat × List Nat) : List Nat :=
  u32LE e.1 ++ u32LE (e.2.length + chooseNulls (off + 8) e.2.length) ++
    e.2 ++ List.replicate (chooseNulls (off + 8) e.2.length) 0

/-- All CHNK entries, each padded against the live writer offset. -/
def chnkEntriesBytes : Nat → List (Nat × List Nat) → List Nat
  | _, [] => []
  | off, e :: es =>
    chnkEntryBytes off e ++ chnkEntriesBytes (off + (chnkEntryBytes off e).length) es

/-- The CHNK block at writer offset `off`: nothing when no entries were
collected, otherwise the magic, the u32 entry count and the entries. -/
def chnkBlock (off : Nat) (entries : List (Nat × List Nat)) : List Nat :=
  if entries = [] then []
  else chnkMagic ++ u32LE entries.length ++ chnkEntriesBytes (off + 8) entries

/-- `generateMbeFile` from src/services/mbeGenerator.ts: EXPA magic, u32 sheet
count, the sheet headers (with dry-run-matched padding), the structural blocks,
then the optional CHNK block holding the sorted non-empty string pool. -/
def generateMbeFile (f : MbeFile) : List Nat :=
  expaMagic ++ u32LE f.sheets.length ++ headersBytes 8 f.sheets ++
    structBytes f.sheets ++
    chnkBlock (8 + (headersBytes 8 f.sheets).length + (structBytes f.sheets).length)
      (poolEntries f)

/-- The generator's phase 3 sanity check: `true` exactly when the real writer's
offset after the headers differs from the dry run's `expaDataMasterStartOffset`
(the `console.warn` mismatch branch). -/
def mismatchWarning (f : MbeFile) : Bool :=
  8 + (headersBytes 8 f.sheets).length != totalHeaderSize f

/-- The parse errors `parseMbeFile` can throw: the explicit EXPA magic mismatch
and unknown column type errors, and the `RangeError` a `DataView` read throws
when an unchecked fixed-size read runs past the end of the buffer. -/
inductive ParseErr
  | invalidMagic
  | unknownColumnType (v : Nat) (sheetName : List Nat) (col : Nat)
  | rangeError
deriving DecidableEq

/-- Bounds-checked u32 read (`DataView.getUint32(i, true)` succeeds only when
`i + 4 ≤ byteLength`). -/
def getU32? (buf : List Nat) (i : Nat) : Option Nat :=
  if i + 4 ≤ buf.length then some (bytesToNat ((buf.drop i).take 4)) else none

/-- Unchecked `DataView.getUint32`: throws `RangeError` when out of bounds. -/
def getU32E (buf : List Nat) (i : Nat) : Except ParseErr Nat :=
  match getU32? buf i with
  | some v => .ok v
  | none => .error .rangeError

/-- Total u32 read, used by the parser only under an explicit bounds check. -/
def getU32D (buf : List Nat) (i : Nat) : Nat :=
  (getU32? buf i).getD 0

/-- `DataView.getInt32(i, true)`, used by the parser only under an explicit
bounds check. -/
def getI32 (buf : List Nat) (i : Nat) : Int :=
  toI32 (getU32D buf i)

/-- `readString` from src/services/mbeParser.ts: zero length or an
out-of-bounds span yields the empty string; otherwise the span is read and
truncated at the first NUL byte. (UTF-8 decoding is the identity in the
byte-sequence representation of strings.) -/
def readString (buf : List Nat) (off len : Nat) : List Nat :=
  if len = 0 then []
  else if off + len > buf.length then []
  else ((buf.drop off).take len).takeWhile (fun b => b != 0)

/-- Whether the bytes of `magic` occur in `buf` at position `i`. -/
def matchesAt (buf magic : List Nat) (i : Nat) : Bool :=
  (buf.drop i).take magic.length == magic

/-- `findMagic` from src/services/mbeParser.ts: the first index in
`[start, buf.length - magic.length]` where the magic occurs, if any. -/
def findMagic (buf magic : List Nat) (start : Nat) : Option Nat :=
  (List.range' start (buf.length + 1 - (start + magic.length))).find?
    (fun i => matchesAt buf magic i)

/-- The parser's EXPA magic loop: `getUint8` throws `RangeError` at the first
missing byte, a present byte that differs throws the invalid-magic error. -/
def checkMagicFrom (buf : List Nat) : List Nat → Nat → Except ParseErr Unit
  | [], _ => .ok ()
  | m :: ms, i =>
    match buf.get? i with
    | none => .error .rangeError
    | some b => if b = m then checkMagicFrom buf ms (i + 1) else .error .invalidMagic

/-- One parsed sheet header. -/
structure HeaderInfo where
  name : List Nat
  columns : List MbeColumn
  expaAreaSizePerRow : Nat
  expaRowCount : Nat
deriving DecidableEq

/-- The parser's column-type loop for one sheet: u32 tags at consecutive
offsets, mapped through the `ColumnType` switch; an unknown tag aborts the
parse. `j` is the column index carried into the error message. -/
def parseColumnTypes (buf : List Nat) (sheetName : List Nat) :
    Nat → Nat → Nat → Except ParseErr (List MbeColumn)
  | 0, _, _ => .ok []
  | n + 1, off, j => do
    let v ← getU32E buf off
    let t ←
      (match v with
       | 2 => Except.ok ColumnType.INT
       | 7 => Except.ok ColumnType.STR
       | 8 => Except.ok ColumnType.STRID
       | _ => Except.error (ParseErr.unknownColumnType v sheetName j))
    let rest ← parseColumnTypes buf sheetName n (off + 4) (j + 1)
    .ok ({ type := t, typeName := t.typeName } :: rest)

/-- The parser's pass 1: read `count` sheet headers starting at offset `off`,
returning them in order together with the offset after the last header. -/
def parseSheetHeaders (buf : List Nat) :
    Nat → Nat → Except ParseErr (List HeaderInfo × Nat)
  | 0, off => .ok ([], off)
  | n + 1, off => do
    let nameLen ← getU32E buf off
    let name := readString buf (off + 4) nameLen
    let colCount ← getU32E buf (off + 4 + nameLen)
    let cols ← parseColumnTypes buf name colCount (off + 8 + nameLen) 0
    let areaSize ← getU32E buf (off + 8 + nameLen + 4 * colCount)
    let rowCount ← getU32E buf (off + 12 + nameLen + 4 * colCount)
    let rest ← parseSheetHeaders buf n (off + 16 + nameLen + 4 * colCount)
    .ok ({ name := name, columns := cols, expaAreaSizePerRow := areaSize,
           expaRowCount := rowCount } :: rest.1, rest.2)

/-- The parser's `chnkLookupMap`: a JS `Map` with last-insertion-wins lookup,
modelled as an association list with the latest insertion in front. -/
abbrev ChnkMap := List (Nat × List Nat)

/-- `Map.get`: the most recently inserted value for the key, if any. -/
def lookupMap (m : ChnkMap) (k : Nat) : Option (List Nat) :=
  (m.find? (fun p => p.1 == k)).map (fun p => p.2)

/-- The parser's CHNK entry loop: a missing 8-byte entry header stops the loop;
a body past end-of-buffer skips the entry but still advances the cursor by the
declared size, clamped at end-of-buffer; otherwise the entry's text (truncated
at its first NUL) is recorded under its target offset. -/
def parseChnkEntries (buf : List Nat) : Nat → Nat → ChnkMap → ChnkMap
  | 0, _, m => m
  | n + 1, off, m =>
    if off + 8 > buf.length then m
    else
      let target := getU32D buf off
      let tlen := getU32D buf (off + 4)
      if off + 8 + tlen > buf.length then
        parseChnkEntries buf n (min (off + 8 + tlen) buf.length) m
      else
        parseChnkEntries buf n (off + 8 + tlen)
          ((target, readString buf (off + 8) tlen) :: m)

/-- The parser's pass 2: search for the CHNK magic from the end of the
structural area; absence yields the empty map, otherwise the u32 entry count
is read (unchecked) and the entries are processed. -/
def chnkPhase (buf : List Nat) (startOff : Nat) : Except ParseErr ChnkMap :=
  match findMagic buf chnkMagic startOff with
  | none => .ok []
  | some m => do
    let n ← getU32E buf (m + 4)
    .ok (parseChnkEntries buf n (m + 8) [])

/-- One materialised cell (parser pass 3): an in-bounds `INT` cell reads an
i32, an out-of-bounds one defaults to 0; a `STR`/`STRID` cell looks its
absolute offset up in the CHNK map, a miss decoding as the empty string. -/
def readCellP (buf : List Nat) (m : ChnkMap) (t : ColumnType) (off : Nat) : CellValue :=
  match t with
  | .INT => if off + 4 > buf.length then .intVal 0 else .intVal (getI32 buf off)
  | _ =>
    match lookupMap m off with
    | some s => .strVal s
    | none => .strVal []

/-- The materialised cells of one row, walking the columns from the row's base
offset and advancing by each column's width. -/
def rowCellsP (buf : List Nat) (m : ChnkMap) : List MbeColumn → Nat → List CellValue
  | [], _ => []
  | col :: cs, off => readCellP buf m col.type off :: rowCellsP buf m cs (off + col.type.width)

/-- The materialised rows of one sheet: row `r` is laid out at
`base + r * stride` where `stride` is the sheet's parsed `expaAreaSizePerRow`.
The source's timestamp-based row identity token is materialised as `""`. -/
def buildRowsP (buf : List Nat) (m : ChnkMap) (cols : List MbeColumn) (stride : Nat) :
    Nat → Nat → List MbeRow
  | 0, _ => []
  | n + 1, off =>
    { id := "", cells := rowCellsP buf m cols off } ::
      buildRowsP buf m cols stride n (off + stride)

/-- One materialised sheet from its parsed header and structural base offset. -/
def materialiseSheet (buf : List Nat) (m : ChnkMap) (h : HeaderInfo) (base : Nat) : MbeSheet :=
  { name := h.name, columns := h.columns,
    rows := buildRowsP buf m h.columns h.expaAreaSizePerRow h.expaRowCount base,
    parsedExpaAreaSizePerRow := h.expaAreaSizePerRow }

/-- All materialised sheets: structural bases are packed back-to-back from the
end of the headers, sheet `i` occupying `expaAreaSizePerRow * expaRowCount`
bytes. -/
def materialiseSheets (buf : List Nat) (m : ChnkMap) : List HeaderInfo → Nat → List MbeSheet
  | [], _ => []
  | h :: hs, base =>
    materialiseSheet buf m h base ::
      materialiseSheets buf m hs (base + h.expaAreaSizePerRow * h.expaRowCount)

/-- Total structural size declared by the parsed headers (the distance from the
end of the headers to the earliest possible CHNK position). -/
def sumStrides : List HeaderInfo → Nat
  | [] => 0
  | h :: t => h.expaAreaSizePerRow * h.expaRowCount + sumStrides t

/-- The fallible phases of `parseMbeFile`: magic check, sheet count, sheet
headers (pass 1) and the CHNK map (pass 2, whose entry-count read is the only
fallible step after the headers). -/
def parsePrefix (buf : List Nat) : Except ParseErr (List HeaderInfo × Nat × ChnkMap) := do
  checkMagicFrom buf expaMagic 0
  let sheetCount ← getU32E buf 4
  let ph ← parseSheetHeaders buf sheetCount 8
  let m ← chnkPhase buf (ph.2 + sumStrides ph.1)
  .ok (ph.1, ph.2, m)

/-- `parseMbeFile` from src/services/mbeParser.ts: the fallible prefix phases
followed by the total row materialisation (pass 3). -/
def parseMbeFile (buf : List Nat) : Except ParseErr MbeFile :=
  match parsePrefix buf with
  | .error e => .error e
  | .ok (headers, hEnd, m) => .ok { sheets := materialiseSheets buf m headers hEnd }

/-! ### Basic byte-level lemmas -/

theorem length_u32LE (v : Nat) : (u32LE v).length = 4 := rfl

theorem length_i32LE (v : Int) : (i32LE v).length = 4 := rfl

theorem bytesToNat_u32LE (v : Nat) : bytesToNat (u32LE v) = v % 2 ^ 32 := by
  simp only [u32LE, bytesToNat]
  omega

theorem getU32?_of_slice {buf pre rest : List Nat} (v : Nat)
    (h : buf = pre ++ u32LE v ++ rest) :
    getU32? buf pre.length = some (v % 2 ^ 32) := by
  subst h
  have hd : ((pre ++ u32LE v ++ rest).drop pre.length).take 4 = u32LE v := by
    rw [List.append_assoc, List.drop_left]
    exact List.take_left' (length_u32LE v)
  have hlen : pre.length + 4 ≤ (pre ++ u32LE v ++ rest).length := by
    simp only [List.length_append, length_u32LE]
    omega
  rw [getU32?, if_pos hlen, hd, bytesToNat_u32LE]

theorem getU32E_of_slice {buf pre rest : List Nat} (v : Nat)
    (h : buf = pre ++ u32LE v ++ rest) (hv : v < 2 ^ 32) :
    getU32E buf pre.length = .ok v := by
  rw [getU32E, getU32?_of_slice v h, Nat.mod_eq_of_lt hv]

theorem getU32D_of_slice {buf pre rest : List Nat} (v : Nat)
    (h : buf = pre ++ u32LE v ++ rest) (hv : v < 2 ^ 32) :
    getU32D buf pre.length = v := by
  rw [getU32D, getU32?_of_slice v h, Nat.mod_eq_of_lt hv]
  rfl

theorem getI32_of_slice {buf pre rest : List Nat} (v : Int)
    (h : buf = pre ++ i32LE v ++ rest) (h1 : -(2 ^ 31) ≤ v) (h2 : v < 2 ^ 31) :
    getI32 buf pre.length = v := by
  have hm : (0 : Int) ≤ v % 2 ^ 32 := Int.emod_nonneg v (by norm_num)
  have hm2 : v % 2 ^ 32 < 2 ^ 32 := Int.emod_lt_of_pos v (by norm_num)
  have hnat : ((v % 2 ^ 32).toNat : Nat) < 2 ^ 32 := by omega
  rw [getI32, getU32D_of_slice ((v % 2 ^ 32).toNat) h hnat, toI32]
  have hv : v % 2 ^ 32 = if 0 ≤ v then v else v + 2 ^ 32 := by
    split <;> omega
  split <;> rename_i hlt
  · omega
  · omega

theorem takeWhile_append_nulPad (s : List Nat) (n : Nat) (hs : ∀ b ∈ s, b ≠ 0) :
    (s ++ List.replicate n 0).takeWhile (fun b => b != 0) = s := by
  induction s with
  | nil =>
    cases n with
    | zero => rfl
    | succ k => simp [List.replicate_succ, List.takeWhile_cons]
  | cons a t ih =>
    have ha : a ≠ 0 := hs a (by simp)
    have hi := ih (fun b hb => hs b (by simp [hb]))
    simp [List.takeWhile_cons, ha, hi]

theorem takeWhile_of_nulFree (s : List Nat) (hs : ∀ b ∈ s, b ≠ 0) :
    s.takeWhile (fun b => b != 0) = s := by
  have := takeWhile_append_nulPad s 0 hs
  simpa using this

theorem readString_of_slice {buf pre data rest : List Nat}
    (h : buf = pre ++ data ++ rest) (hne : data ≠ []) :
    readString buf pre.length data.length = data.takeWhile (fun b => b != 0) := by
  subst h
  have hlen0 : data.length ≠ 0 := by simpa using hne
  have hle : pre.length + data.length ≤ ((pre ++ data ++ rest).length) := by
    simp only [List.length_append]
    omega
  rw [readString, if_neg hlen0, if_neg (by omega)]
  rw [List.append_assoc, List.drop_left, List.take_left' rfl]

/-! ### Padding-rule lemmas -/

theorem chooseNulls_align (ab L : Nat) : (ab + L + chooseNulls ab L) % 4 = 0 := by
  unfold chooseNulls
  split_ifs <;> omega

theorem chooseNulls_ge_two (ab L : Nat) : 2 ≤ chooseNulls ab L := by
  unfold chooseNulls
  split_ifs <;> omega

theorem chooseNulls_le_five (ab L : Nat) : chooseNulls ab L ≤ 5 := by
  unfold chooseNulls
  split_ifs <;> omega

/-- The padding count the specification describes: the smallest total NUL
count `N` in 2..5 making the post-field offset 4-byte aligned, with 2 as the
fallback when no such count exists. -/
def specPad (afterBase L : Nat) : Nat :=
  (([2, 3, 4, 5].filter (fun N => (afterBase + L + N) % 4 == 0)).head?).getD 2

theorem chooseNulls_eq_specPad (ab L : Nat) : chooseNulls ab L = specPad ab L := by
  rcases (by omega :
      (ab + L) % 4 = 0 ∨ (ab + L) % 4 = 1 ∨ (ab + L) % 4 = 2 ∨ (ab + L) % 4 = 3) with
    h | h | h | h
  · have e2 : (ab + L + 2) % 4 = 2 := by omega
    have e3 : (ab + L + 3) % 4 = 3 := by omega
    have e4 : (ab + L + 4) % 4 = 0 := by omega
    have e5 : (ab + L + 5) % 4 = 1 := by omega
    simp [chooseNulls, specPad, e2, e3, e4, e5]
  · have e2 : (ab + L + 2) % 4 = 3 := by omega
    have e3 : (ab + L + 3) % 4 = 0 := by omega
    have e4 : (ab + L + 4) % 4 = 1 := by omega
    have e5 : (ab + L + 5) % 4 = 2 := by omega
    simp [chooseNulls, specPad, e2, e3, e4, e5]
  · have e2 : (ab + L + 2) % 4 = 0 := by omega
    have e3 : (ab + L + 3) % 4 = 1 := by omega
    have e4 : (ab + L + 4) % 4 = 2 := by omega
    have e5 : (ab + L + 5) % 4 = 3 := by omega
    simp [chooseNulls, specPad, e2, e3, e4, e5]
  · have e2 : (ab + L + 2) % 4 = 1 := by omega
    have e3 : (ab + L + 3) % 4 = 2 := by omega
    have e4 : (ab + L + 4) % 4 = 3 := by omega
    have e5 : (ab + L + 5) % 4 = 0 := by omega
    simp [chooseNulls, specPad, e2, e3, e4, e5]

/-! ### Claim C2: the shared padding rule -/

/-- C2: for every variable-length string field `generateMbeFile` emits — a
sheet-name field at writer offset `off`, or a CHNK entry body whose entry
starts at writer offset `off` — the generator's NUL count equals `specPad`,
the smallest `N` in 2..5 aligning the offset after the `L + N` data bytes to
4 (with fallback 2); the stored u32 length field is `L + N`, the data bytes
are the raw string followed by `N` NUL bytes. -/
theorem c2_padding_rule (ab off L : Nat) (nb : List Nat) (e : Nat × List Nat) :
    chooseNulls ab L = specPad ab L ∧
    (sheetNameField off nb).take 4 =
      u32LE (nb.length + specPad (off + 4) nb.length) ∧
    ((sheetNameField off nb).drop 4).take nb.length = nb ∧
    (sheetNameField off nb).drop (4 + nb.length) =
      List.replicate (specPad (off + 4) nb.length) 0 ∧
    (off + 4 + nb.length + specPad (off + 4) nb.length) % 4 = 0 ∧
    ((chnkEntryBytes off e).drop 4).take 4 =
      u32LE (e.2.length + specPad (off + 8) e.2.length) ∧
    ((chnkEntryBytes off e).drop 8).take e.2.length = e.2 ∧
    (chnkEntryBytes off e).drop (8 + e.2.length) =
      List.replicate (specPad (off + 8) e.2.length) 0 ∧
    (off + 8 + e.2.length + specPad (off + 8) e.2.length) % 4 = 0 := by
  have hn := chooseNulls_eq_specPad (off + 4) nb.length
  have hc := chooseNulls_eq_specPad (off + 8) e.2.length
  have hname : sheetNameField off nb =
      u32LE (nb.length + chooseNulls (off + 4) nb.length) ++
        (nb ++ List.replicate (chooseNulls (off + 4) nb.length) 0) := by
    rw [sheetNameField, List.append_assoc]
  have hchnk : chnkEntryBytes off e =
      u32LE e.1 ++ (u32LE (e.2.length + chooseNulls (off + 8) e.2.length) ++
        (e.2 ++ List.replicate (chooseNulls (off + 8) e.2.length) 0)) := by
    rw [chnkEntryBytes, List.append_assoc, List.append_assoc]
  have hdrop4 : (sheetNameField off nb).drop 4 =
      nb ++ List.replicate (chooseNulls (off + 4) nb.length) 0 := by
    rw [hname, List.drop_left' (length_u32LE _)]
  have hcdrop8 : (chnkEntryBytes off e).drop 8 =
      e.2 ++ List.replicate (chooseNulls (off + 8) e.2.length) 0 := by
    rw [hchnk, show (8 : Nat) = 4 + 4 from rfl, ← List.drop_drop,
      List.drop_left' (length_u32LE _), List.drop_left' (length_u32LE _)]
  refine ⟨chooseNulls_eq_specPad ab L, ?_, ?_, ?_, ?_, ?_, ?_, ?_, ?_⟩
  · rw [hname, List.take_left' (length_u32LE _), hn]
  · rw [hdrop4, List.take_left]
  · rw [← List.drop_drop, hdrop4, List.drop_left, hn]
  · rw [← hn]; exact chooseNulls_align (off + 4) nb.length
  · rw [hchnk, List.drop_left' (length_u32LE _), List.take_left' (length_u32LE _), hc]
  · rw [hcdrop8, List.take_left]
  · rw [← List.drop_drop, hcdrop8, List.drop_left, hc]
  · rw [← hc]; exact chooseNulls_align (off + 8) e.2.length

/-! ### Claim C4: parser tolerance branches -/

/-- C4: the parser's pool-entry loop never aborts: a truncated 8-byte entry
header stops the loop with the map as built so far; a declared body past
end-of-buffer skips the entry while still advancing the cursor by the declared
size clamped at end-of-buffer; an out-of-bounds `INT` cell materialises as 0;
and a string cell whose offset is absent from the pool map (for instance
because its entry was skipped) materialises as the empty string. -/
theorem c4_parse_tolerance :
    (∀ (buf : List Nat) (n off : Nat) (m : ChnkMap), off + 8 > buf.length →
      parseChnkEntries buf (n + 1) off m = m) ∧
    (∀ (buf : List Nat) (n off : Nat) (m : ChnkMap), off + 8 ≤ buf.length →
      off + 8 + getU32D buf (off + 4) > buf.length →
      parseChnkEntries buf (n + 1) off m =
        parseChnkEntries buf n (min (off + 8 + getU32D buf (off + 4)) buf.length) m) ∧
    (∀ (buf : List Nat) (m : ChnkMap) (off : Nat), off + 4 > buf.length →
      readCellP buf m .INT off = .intVal 0) ∧
    (∀ (buf : List Nat) (m : ChnkMap) (off : Nat) (t : ColumnType),
      (t = ColumnType.STR ∨ t = ColumnType.STRID) → lookupMap m off = none →
      readCellP buf m t off = .strVal []) := by
  refine ⟨?_, ?_, ?_, ?_⟩
  · intro buf n off m h
    rw [parseChnkEntries, if_pos h]
  · intro buf n off m h h2
    rw [parseChnkEntries, if_neg (by omega)]
    simp only []
    rw [if_pos h2]
  · intro buf m off h
    simp [readCellP, h]
  · intro buf m off t ht hlk
    rcases ht with h | h <;> subst h <;> simp [readCellP, hlk]

/-! ### Claim C3 machinery: error classification -/

theorem checkMagic_mismatch (a b c d : Nat) (t : List Nat)
    (h : ¬(a = 69 ∧ b = 88 ∧ c = 80 ∧ d = 65)) :
    checkMagicFrom (a :: b :: c :: d :: t) expaMagic 0 = .error .invalidMagic := by
  by_cases ha : a = 69
  · by_cases hb : b = 88
    · by_cases hc : c = 80
      · by_cases hd : d = 65
        · exact absurd ⟨ha, hb, hc, hd⟩ h
        · simp [checkMagicFrom, expaMagic, ha, hb, hc, hd]
      · simp [checkMagicFrom, expaMagic, ha, hb, hc]
    · simp [checkMagicFrom, expaMagic, ha, hb]
  · simp [checkMagicFrom, expaMagic, ha]

/-! ### Claim C9 machinery: metadata erasure -/

/-- Erase the UI-only row identity token. -/
def eraseRow (r : MbeRow) : MbeRow := { id := "", cells := r.cells }

/-- Erase the UI-only metadata of a sheet: row identity tokens and the
advisory `parsedExpaAreaSizePerRow` hint. -/
def eraseSheet (s : MbeSheet) : MbeSheet :=
  { name := s.name, columns := s.columns, rows := s.rows.map eraseRow,
    parsedExpaAreaSizePerRow := 0 }

/-- Erase all wire-irrelevant metadata of a file. -/
def eraseMeta (f : MbeFile) : MbeFile :=
  { sheets := f.sheets.map eraseSheet }

/-- The claims' model equivalence: equality up to row identity tokens and the
`parsedExpaAreaSizePerRow` hint. (`STR` and `STRID` cells carry no tag in the
cell value, so cells of equal value are equal outright.) -/
def FileEquiv (F G : MbeFile) : Prop := eraseMeta F = eraseMeta G

instance (F G : MbeFile) : Decidable (FileEquiv F G) :=
  inferInstanceAs (Decidable (eraseMeta F = eraseMeta G))

theorem sheetHeaderBytes_erase (off : Nat) (s : MbeSheet) :
    sheetHeaderBytes off (eraseSheet s) = sheetHeaderBytes off s := by
  simp [sheetHeaderBytes, sheetNameField, eraseSheet]

theorem headersBytes_erase (ss : List MbeSheet) :
    ∀ off, headersBytes off (ss.map eraseSheet) = headersBytes off ss := by
  induction ss with
  | nil => intro off; rfl
  | cons s t ih =>
    intro off
    simp only [List.map_cons, headersBytes, sheetHeaderBytes_erase, ih]

theorem prelimFold_erase (ss : List MbeSheet) :
    ∀ off, prelimFold off (ss.map eraseSheet) = prelimFold off ss := by
  induction ss with
  | nil => intro off; rfl
  | cons s t ih =>
    intro off
    simp only [List.map_cons, prelimFold, eraseSheet, ih]

theorem rowsStructBytes_erase (cols : List MbeColumn) (rows : List MbeRow) :
    rowsStructBytes cols (rows.map eraseRow) = rowsStructBytes cols rows := by
  induction rows with
  | nil => rfl
  | cons r t ih => simp only [List.map_cons, rowsStructBytes, eraseRow, ih]

theorem structBytes_erase (ss : List MbeSheet) :
    structBytes (ss.map eraseSheet) = structBytes ss := by
  induction ss with
  | nil => rfl
  | cons s t ih =>
    simp only [List.map_cons, structBytes, eraseSheet, rowsStructBytes_erase, ih]

theorem collectRows_erase (cols : List MbeColumn) (rows : List MbeRow) :
    ∀ off stride, collectRows cols (rows.map eraseRow) off stride =
      collectRows cols rows off stride := by
  induction rows with
  | nil => intro off stride; rfl
  | cons r t ih =>
    intro off stride
    simp only [List.map_cons, collectRows, eraseRow, ih]

theorem collectSheets_erase (ss : List MbeSheet) :
    ∀ base, collectSheets (ss.map eraseSheet) base = collectSheets ss base := by
  induction ss with
  | nil => intro base; rfl
  | cons s t ih =>
    intro base
    simp only [List.map_cons, collectSheets, eraseSheet, collectRows_erase, ih,
      List.length_map]

theorem generate_eraseMeta (f : MbeFile) :
    generateMbeFile (eraseMeta f) = generateMbeFile f := by
  simp only [generateMbeFile, eraseMeta, totalHeaderSize, List.length_map,
    headersBytes_erase, prelimFold_erase, structBytes_erase, poolEntries,
    collectEntries, collectSheets_erase]

/-- C9: the generator is a pure function of the model (repeated calls yield
the same bytes), and its output is invariant under any change of the rows'
identity tokens or of the sheets' `parsedExpaAreaSizePerRow` hints — files
equal after erasing that metadata generate identical buffers. -/
theorem c9_metadata_independence (f g : MbeFile) :
    generateMbeFile f = generateMbeFile f ∧
    (eraseMeta f = eraseMeta g → generateMbeFile f = generateMbeFile g) := by
  refine ⟨rfl, fun h => ?_⟩
  rw [← generate_eraseMeta f, h, generate_eraseMeta]

/-- C3 counterexample: the 4-byte buffer holding exactly `"EXPA"` has the
correct magic and no column-type tag at all, yet `parseMbeFile` aborts (the
unchecked u32 sheet-count read at offset 4 throws a `RangeError`), so parse
does not throw only on bad magic or unknown column types. -/
theorem c3_counterexample :
    List.take 4 [69, 88, 80, 65] = expaMagic ∧
    parseMbeFile [69, 88, 80, 65] = .error .rangeError := by
  exact ⟨rfl, rfl⟩

/-- Witness for C4 at concrete inputs: a truncated entry header, an entry body
declared past end-of-buffer (declared length 5 at offset 0 of an 8-byte
buffer), an out-of-bounds INT cell, and a string cell missing from the map. -/
theorem c4_parse_tolerance_witness :
    parseChnkEntries [] 1 0 [] = [] ∧
    parseChnkEntries [0, 0, 0, 0, 5, 0, 0, 0] 1 0 [] =
      parseChnkEntries [0, 0, 0, 0, 5, 0, 0, 0] 0
        (min (0 + 8 + getU32D [0, 0, 0, 0, 5, 0, 0, 0] (0 + 4))
          (List.length [0, 0, 0, 0, 5, 0, 0, 0])) [] ∧
    readCellP [] [] .INT 0 = .intVal 0 ∧
    readCellP [] [] .STR 5 = .strVal [] := by
  refine ⟨c4_parse_tolerance.1 [] 0 0 [] (by decide),
    c4_parse_tolerance.2.1 [0, 0, 0, 0, 5, 0, 0, 0] 0 0 [] (by decide) (by decide),
    c4_parse_tolerance.2.2.1 [] [] 0 (by decide),
    c4_parse_tolerance.2.2.2 [] [] 5 .STR (Or.inl rfl) (by rfl)⟩

/-- Witness for C9: two concrete files differing only in a row identity token
and the advisory `parsedExpaAreaSizePerRow` hint generate identical buffers. -/
theorem c9_metadata_independence_witness :
    generateMbeFile
      ⟨[⟨[120], [⟨.INT, .int⟩], [⟨"a", [.intVal 1]⟩], 7⟩]⟩ =
    generateMbeFile
      ⟨[⟨[120], [⟨.INT, .int⟩], [⟨"b", [.intVal 1]⟩], 9⟩]⟩ :=
  (c9_metadata_independence _ _).2 (by rfl)

/-! ### Length and layout lemmas -/

theorem length_sheetNameField (off : Nat) (nb : List Nat) :
    (sheetNameField off nb).length =
      4 + (nb.length + chooseNulls (off + 4) nb.length) := by
  simp only [sheetNameField, List.length_append, length_u32LE, List.length_replicate]
  omega

theorem length_wireTags (cols : List MbeColumn) :
    ((cols.map (fun c => u32LE c.type.wire)).flatten).length = 4 * cols.length := by
  induction cols with
  | nil => rfl
  | cons c cs ih =>
    simp only [List.map_cons, List.flatten_cons, List.length_append, length_u32LE, ih,
      List.length_cons]
    omega

theorem length_sheetHeaderBytes (off : Nat) (s : MbeSheet) :
    (sheetHeaderBytes off s).length =
      4 + (s.name.length + chooseNulls (off + 4) s.name.length) + 4 +
        4 * s.columns.length + 4 + 4 := by
  simp only [sheetHeaderBytes, List.length_append, length_sheetNameField,
    length_u32LE, length_wireTags]

theorem prelimFold_eq_headersBytes (ss : List MbeSheet) :
    ∀ off, prelimFold off ss = off + (headersBytes off ss).length := by
  induction ss with
  | nil => intro off; simp [prelimFold, headersBytes]
  | cons s t ih =>
    intro off
    rw [prelimFold, headersBytes]
    have hoff : off + 4 + (s.name.length + chooseNulls (off + 4) s.name.length) + 4 +
        4 * s.columns.length + 4 + 4 = off + (sheetHeaderBytes off s).length := by
      rw [length_sheetHeaderBytes]; omega
    rw [hoff, ih]
    simp only [List.length_append]
    omega

theorem length_cellBytes (t : ColumnType) (c : Option CellValue) :
    (cellBytes t c).length = t.width := by
  cases t <;> simp [cellBytes, ColumnType.width, length_i32LE]

theorem length_rowStructBytes (cols : List MbeColumn) :
    ∀ cells, (rowStructBytes cols cells).length = rowStride cols := by
  induction cols with
  | nil => intro cells; rfl
  | cons c cs ih =>
    intro cells
    simp only [rowStructBytes, List.length_append, length_cellBytes, ih, rowStride]

/-- Total structural size of a list of sheets: the natural stride times the
row count, summed over the sheets. -/
def structSize : List MbeSheet → Nat
  | [] => 0
  | s :: ss => rowStride s.columns * s.rows.length + structSize ss

theorem length_rowsStructBytes (cols : List MbeColumn) (rows : List MbeRow) :
    (rowsStructBytes cols rows).length = rowStride cols * rows.length := by
  induction rows with
  | nil => simp [rowsStructBytes]
  | cons r rs ih =>
    simp only [rowsStructBytes, List.length_append, length_rowStructBytes, ih,
      List.length_cons]
    ring

theorem length_structBytes (ss : List MbeSheet) :
    (structBytes ss).length = structSize ss := by
  induction ss with
  | nil => rfl
  | cons s t ih =>
    simp only [structBytes, List.length_append, length_rowsStructBytes, ih, structSize]

theorem length_chnkEntryBytes (off : Nat) (e : Nat × List Nat) :
    (chnkEntryBytes off e).length =
      8 + (e.2.length + chooseNulls (off + 8) e.2.length) := by
  simp only [chnkEntryBytes, List.length_append, length_u32LE, List.length_replicate]
  omega

/-! ### Claim C5: u32 field offsets and alignment -/

/-- Offsets of the u32 column-type tags of one sheet header. -/
def colTagOffs : List MbeColumn → Nat → List Nat
  | [], _ => []
  | _ :: cs, off => off :: colTagOffs cs (off + 4)

/-- Offsets of all u32 fields of one sheet header starting at `off`: the name
length, the column count, the type tags, `expaAreaSizePerRow`, the row count. -/
def sheetHeaderU32Offs (off : Nat) (s : MbeSheet) : List Nat :=
  off ::
    (off + 4 + (s.name.length + chooseNulls (off + 4) s.name.length)) ::
    colTagOffs s.columns
      (off + 8 + (s.name.length + chooseNulls (off + 4) s.name.length)) ++
    [off + 8 + (s.name.length + chooseNulls (off + 4) s.name.length) +
       4 * s.columns.length,
     off + 12 + (s.name.length + chooseNulls (off + 4) s.name.length) +
       4 * s.columns.length]

/-- Offsets of the u32 fields of all sheet headers. -/
def headerU32Offs : Nat → List MbeSheet → List Nat
  | _, [] => []
  | off, s :: ss =>
    sheetHeaderU32Offs off s ++ headerU32Offs (off + (sheetHeaderBytes off s).length) ss

/-- Offsets of the u32 fields of one structural row: an `INT` cell contributes
its own offset, a string placeholder contributes both 4-byte halves. -/
def rowCellU32Offs : List MbeColumn → Nat → List Nat
  | [], _ => []
  | c :: cs, off =>
    (match c.type with
     | .INT => [off]
     | _ => [off, off + 4]) ++ rowCellU32Offs cs (off + c.type.width)

/-- Offsets of the u32 fields of all structural rows of one sheet. -/
def rowsCellU32Offs (cols : List MbeColumn) : List MbeRow → Nat → List Nat
  | [], _ => []
  | _ :: rs, off => rowCellU32Offs cols off ++ rowsCellU32Offs cols rs (off + rowStride cols)

/-- Offsets of the u32 fields of all structural blocks. -/
def structU32Offs : List MbeSheet → Nat → List Nat
  | [], _ => []
  | s :: ss, off =>
    rowsCellU32Offs s.columns s.rows off ++
      structU32Offs ss (off + rowStride s.columns * s.rows.length)

/-- Offsets of the u32 target and length fields of the CHNK entries. -/
def chnkEntriesU32Offs : Nat → List (Nat × List Nat) → List Nat
  | _, [] => []
  | off, e :: es =>
    off :: (off + 4) :: chnkEntriesU32Offs (off + (chnkEntryBytes off e).length) es

/-- Every u32 field offset of `generateMbeFile f`: the sheet count at 4, the
header fields, the structural INT cells and placeholder halves, and — when a
pool is emitted — the CHNK entry count and the per-entry target and length. -/
def u32FieldOffsets (f : MbeFile) : List Nat :=
  4 :: headerU32Offs 8 f.sheets ++
    structU32Offs f.sheets (8 + (headersBytes 8 f.sheets).length) ++
    (if poolEntries f = [] then []
     else (8 + (headersBytes 8 f.sheets).length + (structBytes f.sheets).length + 4) ::
       chnkEntriesU32Offs
         (8 + (headersBytes 8 f.sheets).length + (structBytes f.sheets).length + 8)
         (poolEntries f))

theorem width_mod4 (t : ColumnType) : t.width % 4 = 0 := by
  cases t <;> rfl

theorem rowStride_mod4 (cols : List MbeColumn) : rowStride cols % 4 = 0 := by
  induction cols with
  | nil => rfl
  | cons c cs ih =>
    have := width_mod4 c.type
    simp only [rowStride]
    omega

theorem colTagOffs_align (cols : List MbeColumn) :
    ∀ off, off % 4 = 0 → ∀ o ∈ colTagOffs cols off, o % 4 = 0 := by
  induction cols with
  | nil => intro off _ o ho; cases ho
  | cons c cs ih =>
    intro off hoff o ho
    rcases ho with _ | ho
    · exact hoff
    · exact ih (off + 4) (by omega) o (by assumption)

theorem sheetHeaderU32Offs_align (off : Nat) (s : MbeSheet) (hoff : off % 4 = 0) :
    ∀ o ∈ sheetHeaderU32Offs off s, o % 4 = 0 := by
  have hn := chooseNulls_align (off + 4) s.name.length
  intro o ho
  simp only [sheetHeaderU32Offs, List.mem_append, List.mem_cons,
    List.mem_singleton, List.not_mem_nil, or_false] at ho
  rcases ho with (rfl | rfl | ho) | rfl | rfl
  · exact hoff
  · omega
  · exact colTagOffs_align s.columns _ (by omega) o ho
  · omega
  · omega

theorem sheetHeaderBytes_end_align (off : Nat) (s : MbeSheet) (hoff : off % 4 = 0) :
    (off + (sheetHeaderBytes off s).length) % 4 = 0 := by
  have hn := chooseNulls_align (off + 4) s.name.length
  rw [length_sheetHeaderBytes]
  omega

theorem headerU32Offs_align (ss : List MbeSheet) :
    ∀ off, off % 4 = 0 → ∀ o ∈ headerU32Offs off ss, o % 4 = 0 := by
  induction ss with
  | nil => intro off _ o ho; cases ho
  | cons s t ih =>
    intro off hoff o ho
    rcases List.mem_append.1 ho with ho | ho
    · exact sheetHeaderU32Offs_align off s hoff o ho
    · exact ih _ (sheetHeaderBytes_end_align off s hoff) o ho

theorem headersBytes_end_align (ss : List MbeSheet) :
    ∀ off, off % 4 = 0 → (off + (headersBytes off ss).length) % 4 = 0 := by
  induction ss with
  | nil => intro off h; simpa [headersBytes]
  | cons s t ih =>
    intro off hoff
    rw [headersBytes]
    simp only [List.length_append]
    have h1 := sheetHeaderBytes_end_align off s hoff
    have h2 := ih (off + (sheetHeaderBytes off s).length) h1
    omega

theorem rowCellU32Offs_align (cols : List MbeColumn) :
    ∀ off, off % 4 = 0 → ∀ o ∈ rowCellU32Offs cols off, o % 4 = 0 := by
  induction cols with
  | nil => intro off _ o ho; cases ho
  | cons c cs ih =>
    intro off hoff o ho
    have hw := width_mod4 c.type
    rcases List.mem_append.1 ho with ho | ho
    · cases hc : c.type <;> rw [hc] at ho <;> simp at ho <;> omega
    · exact ih (off + c.type.width) (by omega) o ho

theorem rowsCellU32Offs_align (cols : List MbeColumn) (rows : List MbeRow) :
    ∀ off, off % 4 = 0 → ∀ o ∈ rowsCellU32Offs cols rows off, o % 4 = 0 := by
  induction rows with
  | nil => intro off _ o ho; cases ho
  | cons r rs ih =>
    intro off hoff o ho
    have hs := rowStride_mod4 cols
    rcases List.mem_append.1 ho with ho | ho
    · exact rowCellU32Offs_align cols off hoff o ho
    · exact ih (off + rowStride cols) (by omega) o ho

theorem mul_stride_mod4 (cols : List MbeColumn) (n : Nat) :
    rowStride cols * n % 4 = 0 := by
  rcases Nat.dvd_of_mod_eq_zero (rowStride_mod4 cols) with ⟨k, hk⟩
  rw [hk, Nat.mul_assoc]
  exact Nat.mul_mod_right 4 _

theorem structSize_mod4 (ss : List MbeSheet) : structSize ss % 4 = 0 := by
  induction ss with
  | nil => rfl
  | cons s t ih =>
    have h := mul_stride_mod4 s.columns s.rows.length
    simp only [structSize]
    omega

theorem structU32Offs_align (ss : List MbeSheet) :
    ∀ off, off % 4 = 0 → ∀ o ∈ structU32Offs ss off, o % 4 = 0 := by
  induction ss with
  | nil => intro off _ o ho; cases ho
  | cons s t ih =>
    intro off hoff o ho
    have hs := mul_stride_mod4 s.columns s.rows.length
    rcases List.mem_append.1 ho with ho | ho
    · exact rowsCellU32Offs_align s.columns s.rows off hoff o ho
    · exact ih _ (by omega) o ho

theorem chnkEntriesU32Offs_align (es : List (Nat × List Nat)) :
    ∀ off, off % 4 = 0 → ∀ o ∈ chnkEntriesU32Offs off es, o % 4 = 0 := by
  induction es with
  | nil => intro off _ o ho; cases ho
  | cons e t ih =>
    intro off hoff o ho
    have hn := chooseNulls_align (off + 8) e.2.length
    simp only [chnkEntriesU32Offs, List.mem_cons] at ho
    rcases ho with rfl | rfl | ho
    · exact hoff
    · omega
    · refine ih _ ?_ o ho
      rw [length_chnkEntryBytes]
      omega

/-- C5: in every buffer `generateMbeFile` produces, the byte offset of every
u32 field — sheet count, name lengths, column counts, type tags,
`expaAreaSizePerRow`, row counts, INT cells, both halves of each 8-byte string
placeholder, the CHNK entry count and each pool entry's target and length —
is a multiple of 4. -/
theorem c5_u32_alignment (f : MbeFile) : ∀ o ∈ u32FieldOffsets f, o % 4 = 0 := by
  intro o ho
  have hdr := headersBytes_end_align f.sheets 8 (by norm_num)
  have hst : (8 + (headersBytes 8 f.sheets).length + (structBytes f.sheets).length) % 4
      = 0 := by
    have h2 := structSize_mod4 f.sheets
    rw [length_structBytes]
    omega
  by_cases hpe : poolEntries f = [] <;>
    simp only [u32FieldOffsets, hpe, if_true, if_false, List.append_nil,
      List.mem_cons, List.mem_append, List.not_mem_nil, or_false,
      reduceIte] at ho
  · rcases ho with (rfl | ho) | ho
    · rfl
    · exact headerU32Offs_align f.sheets 8 (by norm_num) o ho
    · exact structU32Offs_align f.sheets _ hdr o ho
  · rcases ho with ((rfl | ho) | ho) | rfl | ho
    · rfl
    · exact headerU32Offs_align f.sheets 8 (by norm_num) o ho
    · exact structU32Offs_align f.sheets _ hdr o ho
    · omega
    · exact chnkEntriesU32Offs_align (poolEntries f) _ (by omega) o ho

/-- Witness for C5 at a concrete file: the sheet-count offset 4 is a u32 field
offset of the one-sheet file and is 4-aligned. -/
theorem c5_u32_alignment_witness :
    (4 ∈ u32FieldOffsets ⟨[⟨[120], [⟨.INT, .int⟩], [⟨"", [.intVal 1]⟩], 0⟩]⟩) ∧
    4 % 4 = 0 :=
  ⟨by decide,
   c5_u32_alignment ⟨[⟨[120], [⟨.INT, .int⟩], [⟨"", [.intVal 1]⟩], 0⟩]⟩ 4 (by decide)⟩

/-! ### Claim C7: pool offsets are strictly increasing -/

theorem collectRowCells_bounds (cols : List MbeColumn) :
    ∀ cells off, ∀ e ∈ collectRowCells cols cells off,
      off ≤ e.1 ∧ e.1 + 8 ≤ off + rowStride cols := by
  induction cols with
  | nil => intro cells off e he; cases he
  | cons c cs ih =>
    intro cells off e he
    have hw : 4 ≤ c.type.width := by cases c.type <;> simp [ColumnType.width]
    rw [collectRowCells] at he
    rcases List.mem_append.1 he with he | he
    · cases hc : c.type <;> rw [hc] at he
      · cases he
      all_goals {
        by_cases hs : jsCellString cells.head? = [] <;> simp only [hs, if_true,
          if_false, reduceIte] at he
        · cases he
        · rcases List.mem_singleton.1 he with rfl
          refine ⟨Nat.le_refl _, ?_⟩
          have : rowStride (c :: cs) = c.type.width + rowStride cs := rfl
          rw [this, hc]
          simp [ColumnType.width]
      }
    · rcases ih cells.tail (off + c.type.width) e he with ⟨h1, h2⟩
      have : rowStride (c :: cs) = c.type.width + rowStride cs := rfl
      omega

theorem collectRowCells_pairwise (cols : List MbeColumn) :
    ∀ cells off, List.Pairwise (fun a b : Nat × List Nat => a.1 < b.1)
      (collectRowCells cols cells off) := by
  induction cols with
  | nil => intro cells off; exact List.Pairwise.nil
  | cons c cs ih =>
    intro cells off
    have hw : 4 ≤ c.type.width := by cases c.type <;> simp [ColumnType.width]
    rw [collectRowCells]
    refine List.pairwise_append.2 ⟨?_, ih cells.tail (off + c.type.width), ?_⟩
    · cases c.type
      · exact List.Pairwise.nil
      all_goals {
        by_cases hs : jsCellString cells.head? = [] <;>
          simp only [hs, if_true, if_false, reduceIte]
        · exact List.Pairwise.nil
        · exact List.pairwise_singleton _ _
      }
    · intro a ha b hb
      have hb1 := (collectRowCells_bounds cs cells.tail (off + c.type.width) b hb).1
      cases hc : c.type <;> rw [hc] at ha
      · cases ha
      all_goals {
        by_cases hs : jsCellString cells.head? = [] <;> simp only [hs, if_true,
          if_false, reduceIte] at ha
        · cases ha
        · rcases List.mem_singleton.1 ha with rfl
          simp only []
          omega
      }

theorem collectRows_bounds (cols : List MbeColumn) (rows : List MbeRow) :
    ∀ off, ∀ e ∈ collectRows cols rows off (rowStride cols),
      off ≤ e.1 ∧ e.1 + 8 ≤ off + rows.length * rowStride cols := by
  induction rows with
  | nil => intro off e he; cases he
  | cons r rs ih =>
    intro off e he
    rw [collectRows] at he
    rcases List.mem_append.1 he with he | he
    · rcases collectRowCells_bounds cols r.cells off e he with ⟨h1, h2⟩
      constructor
      · exact h1
      · have : (r :: rs).length * rowStride cols =
          rowStride cols + rs.length * rowStride cols := by
          simp [List.length_cons]
          ring
        omega
    · rcases ih (off + rowStride cols) e he with ⟨h1, h2⟩
      have : (r :: rs).length * rowStride cols =
          rowStride cols + rs.length * rowStride cols := by
        simp [List.length_cons]
        ring
      omega

theorem collectRows_pairwise (cols : List MbeColumn) (rows : List MbeRow) :
    ∀ off, List.Pairwise (fun a b : Nat × List Nat => a.1 < b.1)
      (collectRows cols rows off (rowStride cols)) := by
  induction rows with
  | nil => intro off; exact List.Pairwise.nil
  | cons r rs ih =>
    intro off
    rw [collectRows]
    refine List.pairwise_append.2 ⟨collectRowCells_pairwise cols r.cells off,
      ih (off + rowStride cols), ?_⟩
    intro a ha b hb
    have ha2 := (collectRowCells_bounds cols r.cells off a ha).2
    have hb1 := (collectRows_bounds cols rs (off + rowStride cols) b hb).1
    omega

theorem collectSheets_bounds (ss : List MbeSheet) :
    ∀ base, ∀ e ∈ collectSheets ss base,
      base ≤ e.1 ∧ e.1 + 8 ≤ base + structSize ss := by
  induction ss with
  | nil => intro base e he; cases he
  | cons s t ih =>
    intro base e he
    rw [collectSheets] at he
    rcases List.mem_append.1 he with he | he
    · rcases collectRows_bounds s.columns s.rows base e he with ⟨h1, h2⟩
      have : structSize (s :: t) = rowStride s.columns * s.rows.length + structSize t :=
        rfl
      have hc : s.rows.length * rowStride s.columns =
          rowStride s.columns * s.rows.length := Nat.mul_comm _ _
      omega
    · rcases ih (base + rowStride s.columns * s.rows.length) e he with ⟨h1, h2⟩
      have : structSize (s :: t) = rowStride s.columns * s.rows.length + structSize t :=
        rfl
      omega

theorem collectSheets_pairwise (ss : List MbeSheet) :
    ∀ base, List.Pairwise (fun a b : Nat × List Nat => a.1 < b.1)
      (collectSheets ss base) := by
  induction ss with
  | nil => intro base; exact List.Pairwise.nil
  | cons s t ih =>
    intro base
    rw [collectSheets]
    refine List.pairwise_append.2 ⟨collectRows_pairwise s.columns s.rows base, ih _, ?_⟩
    intro a ha b hb
    have ha2 := (collectRows_bounds s.columns s.rows base a ha).2
    have hb1 := (collectSheets_bounds t (base + rowStride s.columns * s.rows.length)
      b hb).1
    have hc : s.rows.length * rowStride s.columns =
        rowStride s.columns * s.rows.length := Nat.mul_comm _ _
    omega

theorem sortEntries_of_sorted :
    ∀ l : List (Nat × List Nat),
      List.Pairwise (fun a b => a.1 ≤ b.1) l → sortEntries l = l := by
  intro l hl
  induction l with
  | nil => rfl
  | cons x xs ih =>
    rw [sortEntries, ih (List.Pairwise.sublist (List.sublist_cons_self x xs) hl)]
    cases xs with
    | nil => rfl
    | cons y ys =>
      have hxy : x.1 ≤ y.1 := (List.pairwise_cons.1 hl).1 y (by simp)
      rw [insertEntry, if_pos hxy]

/-- C7: in the pool `generateMbeFile` emits, the entry target offsets are
strictly increasing (in particular pairwise distinct). -/
theorem c7_offsets_strictly_increasing (f : MbeFile) :
    List.Pairwise (· < ·) ((poolEntries f).map Prod.fst) := by
  have hp := collectSheets_pairwise f.sheets (totalHeaderSize f)
  have hid : poolEntries f = collectEntries f :=
    sortEntries_of_sorted _ (hp.imp Nat.le_of_lt)
  rw [poolEntries] at hid
  rw [poolEntries, hid, collectEntries, List.pairwise_map]
  exact hp

/-! ### Placeholder back-references (claims C6 and C10) -/

theorem mem_insertEntry (e x : Nat × List Nat) :
    ∀ l, x ∈ insertEntry e l ↔ x = e ∨ x ∈ l := by
  intro l
  induction l with
  | nil => simp [insertEntry]
  | cons y ys ih =>
    rw [insertEntry]
    split_ifs
    · simp [List.mem_cons]
    · simp only [List.mem_cons, ih]
      tauto

theorem mem_sortEntries (x : Nat × List Nat) :
    ∀ l, x ∈ sortEntries l ↔ x ∈ l := by
  intro l
  induction l with
  | nil => simp [sortEntries]
  | cons y ys ih =>
    rw [sortEntries, mem_insertEntry]
    simp only [List.mem_cons, ih]

theorem collectRowCells_placeholder (cols : List MbeColumn) :
    ∀ cells off e, e ∈ collectRowCells cols cells off →
      ∃ pre post, rowStructBytes cols cells = pre ++ (List.replicate 8 0 ++ post) ∧
        off + pre.length = e.1 := by
  induction cols with
  | nil => intro cells off e he; cases he
  | cons c cs ih =>
    intro cells off e he
    rw [collectRowCells] at he
    rcases List.mem_append.1 he with he | he
    · cases hc : c.type <;> rw [hc] at he
      · cases he
      all_goals {
        by_cases hs : jsCellString cells.head? = [] <;> simp only [hs, if_true,
          if_false, reduceIte] at he
        · cases he
        · rcases List.mem_singleton.1 he with rfl
          refine ⟨[], rowStructBytes cs cells.tail, ?_, by simp⟩
          simp [rowStructBytes, cellBytes, hc]
      }
    · obtain ⟨pre, post, hrow, hoff⟩ := ih cells.tail (off + c.type.width) e he
      refine ⟨cellBytes c.type cells.head? ++ pre, post, ?_, ?_⟩
      · rw [rowStructBytes, hrow, List.append_assoc]
      · simp only [List.length_append, length_cellBytes]
        omega

theorem collectRows_placeholder (cols : List MbeColumn) (rows : List MbeRow) :
    ∀ off e, e ∈ collectRows cols rows off (rowStride cols) →
      ∃ pre post, rowsStructBytes cols rows = pre ++ (List.replicate 8 0 ++ post) ∧
        off + pre.length = e.1 := by
  induction rows with
  | nil => intro off e he; cases he
  | cons r rs ih =>
    intro off e he
    rw [collectRows] at he
    rcases List.mem_append.1 he with he | he
    · obtain ⟨pre, post, hrow, hoff⟩ := collectRowCells_placeholder cols r.cells off e he
      refine ⟨pre, post ++ rowsStructBytes cols rs, ?_, hoff⟩
      rw [rowsStructBytes, hrow]
      simp [List.append_assoc]
    · obtain ⟨pre, post, hrow, hoff⟩ := ih (off + rowStride cols) e he
      refine ⟨rowStructBytes cols r.cells ++ pre, post, ?_, ?_⟩
      · rw [rowsStructBytes, hrow, List.append_assoc]
      · simp only [List.length_append, length_rowStructBytes]
        omega

theorem collectSheets_placeholder (ss : List MbeSheet) :
    ∀ base e, e ∈ collectSheets ss base →
      ∃ pre post, structBytes ss = pre ++ (List.replicate 8 0 ++ post) ∧
        base + pre.length = e.1 := by
  induction ss with
  | nil => intro base e he; cases he
  | cons s t ih =>
    intro base e he
    rw [collectSheets] at he
    rcases List.mem_append.1 he with he | he
    · obtain ⟨pre, post, hrow, hoff⟩ :=
        collectRows_placeholder s.columns s.rows base e he
      refine ⟨pre, post ++ structBytes t, ?_, hoff⟩
      rw [structBytes, hrow]
      simp [List.append_assoc]
    · obtain ⟨pre, post, hrow, hoff⟩ :=
        ih (base + rowStride s.columns * s.rows.length) e he
      refine ⟨rowsStructBytes s.columns s.rows ++ pre, post, ?_, ?_⟩
      · rw [structBytes, hrow, List.append_assoc]
      · simp only [List.length_append, length_rowsStructBytes]
        have : rowStride s.columns * s.rows.length =
            s.rows.length * rowStride s.columns := Nat.mul_comm _ _
        omega

theorem generate_placeholder (f : MbeFile) :
    ∀ e ∈ poolEntries f, ∃ pre post,
      generateMbeFile f = pre ++ (List.replicate 8 0 ++ post) ∧ pre.length = e.1 := by
  intro e he
  have he' : e ∈ collectSheets f.sheets (totalHeaderSize f) :=
    (mem_sortEntries e _).1 he
  obtain ⟨pre0, post0, hs, hoff⟩ := collectSheets_placeholder f.sheets _ e he'
  refine ⟨expaMagic ++ u32LE f.sheets.length ++ headersBytes 8 f.sheets ++ pre0,
    post0 ++ chnkBlock
      (8 + (headersBytes 8 f.sheets).length + (structBytes f.sheets).length)
      (poolEntries f), ?_, ?_⟩
  · rw [generateMbeFile]
    set Q := chnkBlock
      (8 + (headersBytes 8 f.sheets).length + (structBytes f.sheets).length)
      (poolEntries f)
    rw [hs]
    simp [List.append_assoc]
  · simp only [List.length_append, length_u32LE, expaMagic, List.length_cons,
      List.length_nil]
    have hh := prelimFold_eq_headersBytes f.sheets 8
    rw [totalHeaderSize] at hoff
    omega

/-- C6: for every pool entry `generateMbeFile` emits with target offset `O`,
the 8 bytes at offset `O` of the same output buffer are all zero — the
structural placeholder of the string cell the entry back-references. -/
theorem c6_backreference_zeros (f : MbeFile) :
    ∀ e ∈ poolEntries f, e.1 + 8 ≤ (generateMbeFile f).length ∧
      ((generateMbeFile f).drop e.1).take 8 = List.replicate 8 0 := by
  intro e he
  obtain ⟨pre, post, hgen, hlen⟩ := generate_placeholder f e he
  constructor
  · rw [hgen]
    simp only [List.length_append, List.length_replicate]
    omega
  · rw [hgen, List.drop_left' hlen, List.take_left' (List.length_replicate 8 0)]

/-- Witness for C6: the mixed-column file of scenario S4 emits one pool entry,
targeting offset 40, and bytes 40..47 of its output are zero. -/
theorem c6_backreference_zeros_witness :
    ((40, [104, 105]) ∈ poolEntries
      ⟨[⟨[109], [⟨.INT, .int⟩, ⟨.STRID, .strID⟩],
        [⟨"", [.intVal 7, .strVal [104, 105]]⟩], 0⟩]⟩) ∧
    (40 + 8 ≤ (generateMbeFile
      ⟨[⟨[109], [⟨.INT, .int⟩, ⟨.STRID, .strID⟩],
        [⟨"", [.intVal 7, .strVal [104, 105]]⟩], 0⟩]⟩).length ∧
     ((generateMbeFile
      ⟨[⟨[109], [⟨.INT, .int⟩, ⟨.STRID, .strID⟩],
        [⟨"", [.intVal 7, .strVal [104, 105]]⟩], 0⟩]⟩).drop 40).take 8 =
       List.replicate 8 0) :=
  ⟨by decide,
   c6_backreference_zeros
     ⟨[⟨[109], [⟨.INT, .int⟩, ⟨.STRID, .strID⟩],
       [⟨"", [.intVal 7, .strVal [104, 105]]⟩], 0⟩]⟩
     (40, [104, 105]) (by decide)⟩

/-- C10: the dry-run total header size equals the real writer's offset after
the headers (8 plus the emitted header bytes), so the generator's
mismatch-warning branch never fires; and every collected pool entry's target
offset is the file offset of an 8-byte zero placeholder in the real output. -/
theorem c10_dry_run_consistency (f : MbeFile) :
    totalHeaderSize f = 8 + (headersBytes 8 f.sheets).length ∧
    mismatchWarning f = false ∧
    ∀ e ∈ poolEntries f, ∃ pre post,
      generateMbeFile f = pre ++ (List.replicate 8 0 ++ post) ∧ pre.length = e.1 := by
  refine ⟨prelimFold_eq_headersBytes f.sheets 8, ?_, generate_placeholder f⟩
  rw [mismatchWarning, totalHeaderSize, prelimFold_eq_headersBytes f.sheets 8]
  simp

/-- Witness for C10 at the S4-style file: its one pool entry targets offset 40
and an 8-byte zero placeholder sits exactly there in the generated buffer. -/
theorem c10_dry_run_consistency_witness :
    ((40, [104, 105]) ∈ poolEntries
      ⟨[⟨[109], [⟨.STRID, .strID⟩, ⟨.INT, .int⟩],
        [⟨"", [.strVal [104, 105], .intVal 7]⟩], 0⟩]⟩) ∨
    (∃ pre post,
      generateMbeFile
        ⟨[⟨[109], [⟨.STRID, .strID⟩, ⟨.INT, .int⟩],
          [⟨"", [.strVal [104, 105], .intVal 7]⟩], 0⟩]⟩ =
        pre ++ (List.replicate 8 0 ++ post) ∧ pre.length = 36) :=
  Or.inr
    ((c10_dry_run_consistency
      ⟨[⟨[109], [⟨.STRID, .strID⟩, ⟨.INT, .int⟩],
        [⟨"", [.strVal [104, 105], .intVal 7]⟩], 0⟩]⟩).2.2
      (36, [104, 105]) (by decide))

/-! ### Model invariants (used by claims C1 and C8) -/

/-- A cell value agrees in kind with its column: integers in `INT` columns,
strings in `STR`/`STRID` columns (the typing invariant of the model, §3). -/
def cellMatches : MbeColumn → CellValue → Prop
  | c, .intVal _ => c.type = .INT
  | c, .strVal _ => c.type = .STR ∨ c.type = .STRID

instance (c : MbeColumn) (v : CellValue) : Decidable (cellMatches c v) :=
  match v with
  | .intVal _ => inferInstanceAs (Decidable (c.type = .INT))
  | .strVal _ => inferInstanceAs (Decidable (c.type = .STR ∨ c.type = .STRID))

/-- The model invariants of §3: every column's label is the canonical one for
its type, every row has exactly one cell per column, and cell kinds agree
with column types. -/
def ModelInv (f : MbeFile) : Prop :=
  ∀ s ∈ f.sheets,
    (∀ c ∈ s.columns, c.typeName = c.type.typeName) ∧
    ∀ r ∈ s.rows, r.cells.length = s.columns.length ∧
      ∀ p ∈ s.columns.zip r.cells, cellMatches p.1 p.2

instance (f : MbeFile) : Decidable (ModelInv f) :=
  inferInstanceAs (Decidable (∀ s ∈ f.sheets,
    (∀ c ∈ s.columns, c.typeName = c.type.typeName) ∧
    ∀ r ∈ s.rows, r.cells.length = s.columns.length ∧
      ∀ p ∈ s.columns.zip r.cells, cellMatches p.1 p.2))

/-! ### Claim C8: pool collection exactness -/

/-- Whether a column/cell pair is a string cell holding a non-empty string. -/
def isNonemptyStrCell (c : MbeColumn) (v : CellValue) : Bool :=
  match c.type, v with
  | .INT, _ => false
  | _, .strVal [] => false
  | _, .strVal (_ :: _) => true
  | _, .intVal _ => false

/-- The number of `STR`/`STRID` cells of the file holding non-empty strings. -/
def nonemptyStrCellCount (f : MbeFile) : Nat :=
  (f.sheets.map (fun s =>
    (s.rows.map (fun r =>
      ((s.columns.zip r.cells).filter (fun p => isNonemptyStrCell p.1 p.2)).length)).sum)).sum

theorem length_insertEntry (e : Nat × List Nat) :
    ∀ l, (insertEntry e l).length = l.length + 1 := by
  intro l
  induction l with
  | nil => rfl
  | cons y ys ih =>
    rw [insertEntry]
    split_ifs <;> simp [ih]

theorem length_sortEntries : ∀ l, (sortEntries l).length = l.length := by
  intro l
  induction l with
  | nil => rfl
  | cons y ys ih => rw [sortEntries, length_insertEntry, ih, List.length_cons]

theorem collectRowCells_length (cols : List MbeColumn) :
    ∀ cells : List CellValue, cells.length = cols.length →
      (∀ p ∈ cols.zip cells, cellMatches p.1 p.2) →
      ∀ off, (collectRowCells cols cells off).length =
        ((cols.zip cells).filter (fun p => isNonemptyStrCell p.1 p.2)).length := by
  induction cols with
  | nil => intro cells _ _ off; simp [collectRowCells]
  | cons c cs ih =>
    intro cells hlen hm off
    cases cells with
    | nil => simp at hlen
    | cons x xs =>
      have hx : cellMatches c x := hm (c, x) (by simp [List.zip_cons_cons])
      have htail := ih xs (by simpa using hlen)
        (fun p hp => hm p (by simp [List.zip_cons_cons, hp]))
      rw [collectRowCells]
      simp only [List.zip_cons_cons, List.filter_cons, List.length_append]
      cases x with
      | intVal v =>
        have hc : c.type = .INT := hx
        simp [hc, isNonemptyStrCell, htail, List.head?, List.tail]
      | strVal s =>
        rcases (hx : c.type = .STR ∨ c.type = .STRID) with hc | hc <;>
          cases s with
          | nil =>
            simp [hc, isNonemptyStrCell, jsCellString, htail, List.head?, List.tail]
          | cons b bs =>
            simp [hc, isNonemptyStrCell, jsCellString, htail, List.head?, List.tail]
            omega

theorem collectRows_length (cols : List MbeColumn) (rows : List MbeRow) :
    (∀ r ∈ rows, r.cells.length = cols.length ∧
      ∀ p ∈ cols.zip r.cells, cellMatches p.1 p.2) →
    ∀ off stride, (collectRows cols rows off stride).length =
      (rows.map (fun r =>
        ((cols.zip r.cells).filter (fun p => isNonemptyStrCell p.1 p.2)).length)).sum := by
  induction rows with
  | nil => intro _ off stride; simp [collectRows]
  | cons r rs ih =>
    intro hr off stride
    have h1 := hr r (by simp)
    rw [collectRows]
    simp only [List.length_append, List.map_cons, List.sum_cons]
    rw [collectRowCells_length cols r.cells h1.1 h1.2 off,
      ih (fun r hrr => hr r (by simp [hrr])) (off + stride) stride]

theorem collectSheets_length (ss : List MbeSheet)
    (hinv : ∀ s ∈ ss,
      (∀ c ∈ s.columns, c.typeName = c.type.typeName) ∧
      ∀ r ∈ s.rows, r.cells.length = s.columns.length ∧
        ∀ p ∈ s.columns.zip r.cells, cellMatches p.1 p.2) :
    ∀ base, (collectSheets ss base).length =
      (ss.map (fun s =>
        (s.rows.map (fun r =>
          ((s.columns.zip r.cells).filter
            (fun p => isNonemptyStrCell p.1 p.2)).length)).sum)).sum := by
  induction ss with
  | nil => intro base; simp [collectSheets]
  | cons s t ih =>
    intro base
    rw [collectSheets]
    simp only [List.length_append, List.map_cons, List.sum_cons]
    rw [collectRows_length s.columns s.rows ((hinv s (by simp)).2) base
      (rowStride s.columns),
      ih (fun u hu => hinv u (by simp [hu])) _]

/-- C8: under the §3 model invariants, `generateMbeFile` collects exactly one
pool entry per `STR`/`STRID` cell holding a non-empty string (none for empty
strings); when no such cell exists the output ends at the structural block
(no CHNK magic emitted), and when one exists the CHNK magic and the u32 entry
count — equal to the number of such cells — follow the structural block. -/
theorem c8_pool_exactness (f : MbeFile) (hinv : ModelInv f) :
    (poolEntries f).length = nonemptyStrCellCount f ∧
    (nonemptyStrCellCount f = 0 →
      (generateMbeFile f).length =
        8 + (headersBytes 8 f.sheets).length + (structBytes f.sheets).length) ∧
    (0 < nonemptyStrCellCount f →
      ((generateMbeFile f).drop
          (8 + (headersBytes 8 f.sheets).length + (structBytes f.sheets).length)).take 4 =
        chnkMagic ∧
      ((generateMbeFile f).drop
          (8 + (headersBytes 8 f.sheets).length + (structBytes f.sheets).length + 4)).take 4 =
        u32LE (nonemptyStrCellCount f)) := by
  have hcount : (poolEntries f).length = nonemptyStrCellCount f := by
    rw [poolEntries, length_sortEntries, collectEntries, nonemptyStrCellCount,
      collectSheets_length f.sheets hinv]
  have hpre : (expaMagic ++ u32LE f.sheets.length ++ headersBytes 8 f.sheets ++
      structBytes f.sheets).length =
      8 + (headersBytes 8 f.sheets).length + (structBytes f.sheets).length := by
    simp only [List.length_append, length_u32LE, expaMagic, List.length_cons,
      List.length_nil]
  refine ⟨hcount, ?_, ?_⟩
  · intro h0
    have hnil : poolEntries f = [] := List.length_eq_zero.1 (hcount.trans h0)
    rw [generateMbeFile, hnil, chnkBlock, if_pos rfl, List.append_nil, hpre]
  · intro hpos
    have hne : poolEntries f ≠ [] := by
      intro hx
      rw [hx] at hcount
      simp only [List.length_nil] at hcount
      omega
    rw [generateMbeFile, chnkBlock, if_neg hne]
    constructor
    · rw [List.drop_left' hpre, List.append_assoc,
        List.take_left' (by simp [chnkMagic] : (chnkMagic : List Nat).length = 4)]
    · rw [← List.drop_drop, List.drop_left' hpre, List.append_assoc,
        List.drop_left' (by simp [chnkMagic] : (chnkMagic : List Nat).length = 4),
        List.take_left' (length_u32LE _), hcount]

/-! ### Claim C1 machinery, stage A: positioned reads and column tags -/

theorem getU32E_at {buf : List Nat} (pre rest : List Nat) (v off : Nat)
    (h : buf = pre ++ u32LE v ++ rest) (hoff : off = pre.length) (hv : v < 2 ^ 32) :
    getU32E buf off = .ok v := by
  subst hoff
  exact getU32E_of_slice v h hv

theorem getU32D_at {buf : List Nat} (pre rest : List Nat) (v off : Nat)
    (h : buf = pre ++ u32LE v ++ rest) (hoff : off = pre.length) (hv : v < 2 ^ 32) :
    getU32D buf off = v := by
  subst hoff
  exact getU32D_of_slice v h hv

theorem getI32_at {buf : List Nat} (pre rest : List Nat) (v : Int) (off : Nat)
    (h : buf = pre ++ i32LE v ++ rest) (hoff : off = pre.length)
    (h1 : -(2 ^ 31) ≤ v) (h2 : v < 2 ^ 31) :
    getI32 buf off = v := by
  subst hoff
  exact getI32_of_slice v h h1 h2

theorem readString_at {buf : List Nat} (pre data rest : List Nat) (off len : Nat)
    (h : buf = pre ++ data ++ rest) (hoff : off = pre.length)
    (hlen : len = data.length) (hne : data ≠ []) :
    readString buf off len = data.takeWhile (fun b => b != 0) := by
  subst hoff
  subst hlen
  exact readString_of_slice h hne

theorem takeWhile_append_replicate_zero (s : List Nat) (n : Nat) :
    (s ++ List.replicate n 0).takeWhile (fun b => b != 0) =
      s.takeWhile (fun b => b != 0) := by
  induction s with
  | nil =>
    cases n with
    | zero => rfl
    | succ k => simp [List.replicate_succ, List.takeWhile_cons]
  | cons a t ih =>
    by_cases ha : a = 0
    · subst ha
      simp [List.takeWhile_cons]
    · simp [List.takeWhile_cons, ha, ih]

theorem ok_bind {α β : Type} (a : α) (k : α → Except ParseErr β) :
    (Except.ok a >>= k) = k a := rfl

theorem wire_lt (t : ColumnType) : t.wire < 2 ^ 32 := by
  cases t <;> simp [ColumnType.wire]

theorem parseColumnTypes_rt (cols : List MbeColumn)
    (hcols : ∀ c ∈ cols, c.typeName = c.type.typeName) :
    ∀ (pre rest nm : List Nat) (j : Nat),
      parseColumnTypes (pre ++ (cols.map (fun c => u32LE c.type.wire)).flatten ++ rest)
        nm cols.length pre.length j = .ok cols := by
  induction cols with
  | nil => intro pre rest nm j; rfl
  | cons c cs ih =>
    intro pre rest nm j
    have hc := hcols c (by simp)
    have hbuf : pre ++ ((c :: cs).map (fun c => u32LE c.type.wire)).flatten ++ rest =
        pre ++ u32LE c.type.wire ++
          ((cs.map (fun c => u32LE c.type.wire)).flatten ++ rest) := by
      simp [List.append_assoc]
    have hget : getU32E (pre ++ ((c :: cs).map (fun c => u32LE c.type.wire)).flatten
        ++ rest) pre.length = .ok c.type.wire :=
      getU32E_at _ _ _ _ hbuf rfl (wire_lt c.type)
    have hrec := ih (fun x hx => hcols x (by simp [hx]))
      (pre ++ u32LE c.type.wire)
      rest nm (j + 1)
    rw [List.append_assoc] at hrec
    have hlen : (pre ++ u32LE c.type.wire).length = pre.length + 4 := by
      simp [length_u32LE]
    rw [hlen] at hrec
    rw [← hbuf] at hrec
    show parseColumnTypes _ nm (cs.length + 1) pre.length j = _
    rw [parseColumnTypes, hget, ok_bind]
    cases ht : c.type <;> rw [ColumnType.wire] <;>
      simp only [ok_bind] <;> rw [hrec] <;> simp only [ok_bind] <;>
      · congr 1
        obtain ⟨ctype, cname⟩ := c
        have hc' : cname = ColumnType.typeName ctype := hc
        have ht' : ctype = _ := ht
        subst hc'
        subst ht'
        rfl

/-! ### Claim C1 machinery, stage B: sheet-header round-trip -/

/-- Wire-width side conditions for one sheet: every u32 field the generator
writes for this sheet fits in 32 bits, and column labels are canonical. -/
def SheetWireOk (s : MbeSheet) : Prop :=
  s.name.length + 5 < 2 ^ 32 ∧ s.columns.length < 2 ^ 32 ∧
    rowStride s.columns < 2 ^ 32 ∧ s.rows.length < 2 ^ 32 ∧
    ∀ c ∈ s.columns, c.typeName = c.type.typeName

/-- The header the parser reads back for a sheet the generator wrote: the name
truncated at its first NUL, the same columns, the natural stride, the row
count. -/
def toHeader (s : MbeSheet) : HeaderInfo :=
  { name := s.name.takeWhile (fun b => b != 0), columns := s.columns,
    expaAreaSizePerRow := rowStride s.columns, expaRowCount := s.rows.length }

theorem parseSheetHeaders_rt (ss : List MbeSheet) (hok : ∀ s ∈ ss, SheetWireOk s) :
    ∀ (pre rest : List Nat),
      parseSheetHeaders (pre ++ headersBytes pre.length ss ++ rest) ss.length pre.length
        = .ok (ss.map toHeader, pre.length + (headersBytes pre.length ss).length) := by
  induction ss with
  | nil =>
    intro pre rest
    show Except.ok ([], pre.length) = _
    simp [headersBytes]
  | cons s t ih =>
    intro pre rest
    obtain ⟨hname5, hncols, hstr, hrows, htn⟩ := hok s (by simp)
    have hnle := chooseNulls_le_five (pre.length + 4) s.name.length
    have hnge := chooseNulls_ge_two (pre.length + 4) s.name.length
    have hbuf : pre ++ headersBytes pre.length (s :: t) ++ rest =
        pre ++ sheetNameField pre.length s.name ++ u32LE s.columns.length ++
          (s.columns.map (fun c => u32LE c.type.wire)).flatten ++
          u32LE (rowStride s.columns) ++ u32LE s.rows.length ++
          (headersBytes (pre.length + (sheetHeaderBytes pre.length s).length) t ++
            rest) := by
      rw [headersBytes, sheetHeaderBytes]
      simp [List.append_assoc]
    have hget1 : getU32E (pre ++ headersBytes pre.length (s :: t) ++ rest)
        pre.length = .ok (s.name.length + chooseNulls (pre.length + 4) s.name.length) := by
      refine getU32E_at pre
        (s.name ++ List.replicate (chooseNulls (pre.length + 4) s.name.length) 0 ++
          (u32LE s.columns.length ++
            (s.columns.map (fun c => u32LE c.type.wire)).flatten ++
            u32LE (rowStride s.columns) ++ u32LE s.rows.length ++
            (headersBytes (pre.length + (sheetHeaderBytes pre.length s).length) t ++
              rest)))
        _ _ ?_ rfl (by omega)
      rw [hbuf, sheetNameField]
      simp [List.append_assoc]
    have hread : readString (pre ++ headersBytes pre.length (s :: t) ++ rest)
        (pre.length + 4)
        (s.name.length + chooseNulls (pre.length + 4) s.name.length) =
        s.name.takeWhile (fun b => b != 0) := by
      rw [readString_at
        (pre ++ u32LE (s.name.length + chooseNulls (pre.length + 4) s.name.length))
        (s.name ++ List.replicate (chooseNulls (pre.length + 4) s.name.length) 0)
        (u32LE s.columns.length ++
          (s.columns.map (fun c => u32LE c.type.wire)).flatten ++
          u32LE (rowStride s.columns) ++ u32LE s.rows.length ++
          (headersBytes (pre.length + (sheetHeaderBytes pre.length s).length) t ++
            rest))
        _ _ ?_ ?_ ?_ ?_]
      · exact takeWhile_append_replicate_zero s.name _
      · rw [hbuf, sheetNameField]
        simp [List.append_assoc]
      · simp [length_u32LE]
      · simp
      · intro hx
        have := congrArg List.length hx
        simp at this
        omega
    have hget2 : getU32E (pre ++ headersBytes pre.length (s :: t) ++ rest)
        (pre.length + 4 +
          (s.name.length + chooseNulls (pre.length + 4) s.name.length)) =
        .ok s.columns.length := by
      refine getU32E_at
        (pre ++ sheetNameField pre.length s.name)
        ((s.columns.map (fun c => u32LE c.type.wire)).flatten ++
          u32LE (rowStride s.columns) ++ u32LE s.rows.length ++
          (headersBytes (pre.length + (sheetHeaderBytes pre.length s).length) t ++
            rest))
        _ _ ?_ ?_ hncols
      · rw [hbuf]
        simp [List.append_assoc]
      · simp only [List.length_append, length_sheetNameField]
        omega
    have hcolsparse : parseColumnTypes (pre ++ headersBytes pre.length (s :: t) ++ rest)
        (s.name.takeWhile (fun b => b != 0)) s.columns.length
        (pre.length + 8 +
          (s.name.length + chooseNulls (pre.length + 4) s.name.length)) 0 =
        .ok s.columns := by
      have hP := parseColumnTypes_rt s.columns htn
        (pre ++ sheetNameField pre.length s.name ++ u32LE s.columns.length)
        (u32LE (rowStride s.columns) ++ u32LE s.rows.length ++
          (headersBytes (pre.length + (sheetHeaderBytes pre.length s).length) t ++
            rest))
        (s.name.takeWhile (fun b => b != 0)) 0
      have heq : pre ++ sheetNameField pre.length s.name ++ u32LE s.columns.length ++
          (s.columns.map (fun c => u32LE c.type.wire)).flatten ++
          (u32LE (rowStride s.columns) ++ u32LE s.rows.length ++
            (headersBytes (pre.length + (sheetHeaderBytes pre.length s).length) t ++
              rest)) =
          pre ++ headersBytes pre.length (s :: t) ++ rest := by
        rw [hbuf]
        simp [List.append_assoc]
      have hpos : (pre ++ sheetNameField pre.length s.name ++
          u32LE s.columns.length).length =
          pre.length + 8 +
            (s.name.length + chooseNulls (pre.length + 4) s.name.length) := by
        simp only [List.length_append, length_sheetNameField, length_u32LE]
        omega
      rw [heq, hpos] at hP
      exact hP
    have hget4 : getU32E (pre ++ headersBytes pre.length (s :: t) ++ rest)
        (pre.length + 8 +
          (s.name.length + chooseNulls (pre.length + 4) s.name.length) +
          4 * s.columns.length) =
        .ok (rowStride s.columns) := by
      refine getU32E_at
        (pre ++ sheetNameField pre.length s.name ++ u32LE s.columns.length ++
          (s.columns.map (fun c => u32LE c.type.wire)).flatten)
        (u32LE s.rows.length ++
          (headersBytes (pre.length + (sheetHeaderBytes pre.length s).length) t ++
            rest))
        _ _ ?_ ?_ hstr
      · rw [hbuf]
        simp [List.append_assoc]
      · simp only [List.length_append, length_sheetNameField, length_u32LE,
          length_wireTags]
        omega
    have hget5 : getU32E (pre ++ headersBytes pre.length (s :: t) ++ rest)
        (pre.length + 12 +
          (s.name.length + chooseNulls (pre.length + 4) s.name.length) +
          4 * s.columns.length) =
        .ok s.rows.length := by
      refine getU32E_at
        (pre ++ sheetNameField pre.length s.name ++ u32LE s.columns.length ++
          (s.columns.map (fun c => u32LE c.type.wire)).flatten ++
          u32LE (rowStride s.columns))
        (headersBytes (pre.length + (sheetHeaderBytes pre.length s).length) t ++ rest)
        _ _ ?_ ?_ hrows
      · rw [hbuf]
      · simp only [List.length_append, length_sheetNameField, length_u32LE,
          length_wireTags]
        omega
    have hrec : parseSheetHeaders (pre ++ headersBytes pre.length (s :: t) ++ rest)
        t.length
        (pre.length + 16 +
          (s.name.length + chooseNulls (pre.length + 4) s.name.length) +
          4 * s.columns.length) =
        .ok (t.map toHeader,
          (pre ++ sheetHeaderBytes pre.length s).length +
            (headersBytes ((pre ++ sheetHeaderBytes pre.length s).length) t).length) := by
      have hI := ih (fun u hu => hok u (by simp [hu]))
        (pre ++ sheetHeaderBytes pre.length s) rest
      have heq : pre ++ sheetHeaderBytes pre.length s ++
          headersBytes ((pre ++ sheetHeaderBytes pre.length s).length) t ++ rest =
          pre ++ headersBytes pre.length (s :: t) ++ rest := by
        rw [headersBytes]
        simp only [List.length_append]
        simp [List.append_assoc]
      have hpos : (pre ++ sheetHeaderBytes pre.length s).length =
          pre.length + 16 +
            (s.name.length + chooseNulls (pre.length + 4) s.name.length) +
            4 * s.columns.length := by
        simp only [List.length_append, length_sheetHeaderBytes]
        omega
      rw [heq] at hI
      rw [← hpos]
      exact hI
    show parseSheetHeaders _ (t.length + 1) pre.length = _
    rw [parseSheetHeaders, hget1]
    simp only [ok_bind]
    rw [hread, hget2]
    simp only [ok_bind]
    rw [hcolsparse]
    simp only [ok_bind]
    rw [hget4]
    simp only [ok_bind]
    rw [hget5]
    simp only [ok_bind]
    rw [hrec]
    simp only [ok_bind]
    rw [List.map_cons]
    congr 2
    rw [headersBytes]
    simp only [List.length_append]
    omega

/-! ### Claim C1 machinery, stage C: CHNK round-trip -/

/-- What the parser records for an emitted pool entry: the target offset and
the body truncated at its first NUL. -/
def entryKV (e : Nat × List Nat) : Nat × List Nat :=
  (e.1, e.2.takeWhile (fun b => b != 0))

theorem parseChnkEntries_rt (es : List (Nat × List Nat))
    (hok : ∀ e ∈ es, e.1 < 2 ^ 32 ∧ e.2.length + 5 < 2 ^ 32) :
    ∀ (pre : List Nat) (m : ChnkMap),
      parseChnkEntries (pre ++ chnkEntriesBytes pre.length es) es.length pre.length m =
        (es.map entryKV).reverse ++ m := by
  induction es with
  | nil => intro pre m; rfl
  | cons e es' ih =>
    intro pre m
    obtain ⟨ht32, hl32⟩ := hok e (by simp)
    have hnge := chooseNulls_ge_two (pre.length + 8) e.2.length
    have hnle := chooseNulls_le_five (pre.length + 8) e.2.length
    have hbuf : pre ++ chnkEntriesBytes pre.length (e :: es') =
        pre ++ u32LE e.1 ++
          u32LE (e.2.length + chooseNulls (pre.length + 8) e.2.length) ++
          (e.2 ++ List.replicate (chooseNulls (pre.length + 8) e.2.length) 0) ++
          chnkEntriesBytes (pre.length + (chnkEntryBytes pre.length e).length) es' := by
      rw [chnkEntriesBytes, chnkEntryBytes]
      simp [List.append_assoc]
    have hlenbuf : (pre ++ chnkEntriesBytes pre.length (e :: es')).length =
        pre.length + (8 + (e.2.length + chooseNulls (pre.length + 8) e.2.length)) +
          (chnkEntriesBytes (pre.length + (chnkEntryBytes pre.length e).length)
            es').length := by
      rw [hbuf]
      simp only [List.length_append, length_u32LE, List.length_replicate]
      omega
    have htarget : getU32D (pre ++ chnkEntriesBytes pre.length (e :: es'))
        pre.length = e.1 := by
      refine getU32D_at pre
        (u32LE (e.2.length + chooseNulls (pre.length + 8) e.2.length) ++
          ((e.2 ++ List.replicate (chooseNulls (pre.length + 8) e.2.length) 0) ++
            chnkEntriesBytes (pre.length + (chnkEntryBytes pre.length e).length) es'))
        _ _ ?_ rfl ht32
      rw [hbuf]
      simp [List.append_assoc]
    have htlen : getU32D (pre ++ chnkEntriesBytes pre.length (e :: es'))
        (pre.length + 4) =
        e.2.length + chooseNulls (pre.length + 8) e.2.length := by
      refine getU32D_at (pre ++ u32LE e.1)
        ((e.2 ++ List.replicate (chooseNulls (pre.length + 8) e.2.length) 0) ++
          chnkEntriesBytes (pre.length + (chnkEntryBytes pre.length e).length) es')
        _ _ ?_ (by simp [length_u32LE]) (by omega)
      rw [hbuf]
      simp [List.append_assoc]
    have hreadstr : readString (pre ++ chnkEntriesBytes pre.length (e :: es'))
        (pre.length + 8)
        (e.2.length + chooseNulls (pre.length + 8) e.2.length) =
        e.2.takeWhile (fun b => b != 0) := by
      rw [readString_at
        (pre ++ u32LE e.1 ++
          u32LE (e.2.length + chooseNulls (pre.length + 8) e.2.length))
        (e.2 ++ List.replicate (chooseNulls (pre.length + 8) e.2.length) 0)
        (chnkEntriesBytes (pre.length + (chnkEntryBytes pre.length e).length) es')
        _ _ ?_ ?_ ?_ ?_]
      · exact takeWhile_append_replicate_zero e.2 _
      · rw [hbuf]
      · simp [length_u32LE]
      · simp
      · intro hx
        have := congrArg List.length hx
        simp at this
        omega
    have hrec : parseChnkEntries (pre ++ chnkEntriesBytes pre.length (e :: es'))
        es'.length
        (pre.length + 8 + (e.2.length + chooseNulls (pre.length + 8) e.2.length))
        ((e.1, e.2.takeWhile (fun b => b != 0)) :: m) =
        (es'.map entryKV).reverse ++
          ((e.1, e.2.takeWhile (fun b => b != 0)) :: m) := by
      have hI := ih (fun x hx => hok x (by simp [hx]))
        (pre ++ chnkEntryBytes pre.length e)
        ((e.1, e.2.takeWhile (fun b => b != 0)) :: m)
      have heq : pre ++ chnkEntryBytes pre.length e ++
          chnkEntriesBytes ((pre ++ chnkEntryBytes pre.length e).length) es' =
          pre ++ chnkEntriesBytes pre.length (e :: es') := by
        rw [chnkEntriesBytes]
        simp only [List.length_append]
        simp [List.append_assoc]
      have hpos : (pre ++ chnkEntryBytes pre.length e).length =
          pre.length + 8 +
            (e.2.length + chooseNulls (pre.length + 8) e.2.length) := by
        simp only [List.length_append, length_chnkEntryBytes]
        omega
      rw [heq, hpos] at hI
      exact hI
    show parseChnkEntries _ (es'.length + 1) pre.length m = _
    rw [parseChnkEntries]
    rw [if_neg (by rw [hlenbuf]; omega)]
    simp only [htarget, htlen]
    rw [if_neg (by rw [hlenbuf]; omega)]
    rw [hreadstr, hrec]
    simp [entryKV, List.reverse_cons, List.append_assoc]

theorem chnkPhase_generated (base : List Nat) (es : List (Nat × List Nat))
    (hok : ∀ e ∈ es, e.1 < 2 ^ 32 ∧ e.2.length + 5 < 2 ^ 32)
    (hcnt : es.length < 2 ^ 32) :
    chnkPhase (base ++ chnkBlock base.length es) base.length =
      .ok ((es.map entryKV).reverse) := by
  by_cases hne : es = []
  · subst hne
    rw [chnkBlock, if_pos rfl, List.append_nil, chnkPhase]
    rw [show findMagic base chnkMagic base.length = none from ?_]
    · rfl
    · rw [findMagic]
      rw [show base.length + 1 - (base.length + chnkMagic.length) = 0 by
        simp [chnkMagic]]
      rfl
  · have hbuf : base ++ chnkBlock base.length es =
        base ++ chnkMagic ++ u32LE es.length ++
          chnkEntriesBytes (base.length + 8) es := by
      rw [chnkBlock, if_neg hne]
      simp [List.append_assoc]
    have hdrop : ((base ++ chnkBlock base.length es).drop base.length).take 4 =
        chnkMagic := by
      rw [hbuf]
      rw [show base ++ chnkMagic ++ u32LE es.length ++
          chnkEntriesBytes (base.length + 8) es =
          base ++ (chnkMagic ++ (u32LE es.length ++
            chnkEntriesBytes (base.length + 8) es)) by simp [List.append_assoc]]
      rw [List.drop_left, List.take_left' (by simp [chnkMagic])]
    have hmatch : matchesAt (base ++ chnkBlock base.length es) chnkMagic
        base.length = true := by
      rw [matchesAt, show (chnkMagic : List Nat).length = 4 by simp [chnkMagic],
        hdrop]
      simp
    have hfind : findMagic (base ++ chnkBlock base.length es) chnkMagic
        base.length = some base.length := by
      rw [findMagic]
      have hlen : (base ++ chnkBlock base.length es).length + 1 -
          (base.length + chnkMagic.length) =
          ((base ++ chnkBlock base.length es).length -
            (base.length + chnkMagic.length)) + 1 := by
        rw [hbuf]
        simp only [List.length_append, length_u32LE]
        simp [chnkMagic]
        omega
      rw [hlen, List.range'_succ, List.find?_cons_of_pos _ hmatch]
    have hcount : getU32E (base ++ chnkBlock base.length es) (base.length + 4) =
        .ok es.length := by
      refine getU32E_at (base ++ chnkMagic)
        (chnkEntriesBytes (base.length + 8) es) _ _ ?_ (by simp [chnkMagic]) hcnt
      rw [hbuf]
    have hentries : parseChnkEntries (base ++ chnkBlock base.length es) es.length
        (base.length + 8) [] = (es.map entryKV).reverse ++ [] := by
      have hP := parseChnkEntries_rt es hok (base ++ chnkMagic ++ u32LE es.length) []
      have hpos : (base ++ chnkMagic ++ u32LE es.length).length =
          base.length + 8 := by
        simp [chnkMagic, length_u32LE]
      rw [hpos] at hP
      have heq : base ++ chnkMagic ++ u32LE es.length ++
          chnkEntriesBytes (base.length + 8) es =
          base ++ chnkBlock base.length es := by
        rw [hbuf]
      rw [heq] at hP
      exact hP
    rw [chnkPhase, hfind]
    simp only []
    rw [hcount, ok_bind, hentries, List.append_nil]

/-! ### Claim C1 machinery, stage D: the CHNK map as a function of cells -/

/-- Offsets and coerced string values of all string cells of one row, empty
ones included: the domain over which the materialisation pass consults the
CHNK map. -/
def allRowCells : List MbeColumn → List CellValue → Nat → List (Nat × List Nat)
  | [], _, _ => []
  | col :: cs, cells, off =>
    (match col.type with
     | .INT => []
     | _ => [(off, jsCellString cells.head?)]) ++
      allRowCells cs cells.tail (off + col.type.width)

/-- All string cells of the rows of one sheet. -/
def allRows (cols : List MbeColumn) : List MbeRow → Nat → Nat → List (Nat × List Nat)
  | [], _, _ => []
  | r :: rs, off, stride =>
    allRowCells cols r.cells off ++ allRows cols rs (off + stride) stride

/-- All string cells of all sheets. -/
def allSheets : List MbeSheet → Nat → List (Nat × List Nat)
  | [], _ => []
  | s :: ss, base =>
    allRows s.columns s.rows base (rowStride s.columns) ++
      allSheets ss (base + rowStride s.columns * s.rows.length)

theorem collectRowCells_eq_filter (cols : List MbeColumn) :
    ∀ cells off, collectRowCells cols cells off =
      (allRowCells cols cells off).filter (fun e => !e.2.isEmpty) := by
  induction cols with
  | nil => intro cells off; rfl
  | cons c cs ih =>
    intro cells off
    rw [collectRowCells, allRowCells, List.filter_append, ih]
    congr 1
    cases c.type
    · rfl
    all_goals {
      rcases hx : jsCellString cells.head? with _ | ⟨a, t⟩ <;> simp [hx, List.filter]
    }

theorem collectRows_eq_filter (cols : List MbeColumn) (rows : List MbeRow) :
    ∀ off stride, collectRows cols rows off stride =
      (allRows cols rows off stride).filter (fun e => !e.2.isEmpty) := by
  induction rows with
  | nil => intro off stride; rfl
  | cons r rs ih =>
    intro off stride
    rw [collectRows, allRows, List.filter_append, ih, collectRowCells_eq_filter]

theorem collectSheets_eq_filter (ss : List MbeSheet) :
    ∀ base, collectSheets ss base =
      (allSheets ss base).filter (fun e => !e.2.isEmpty) := by
  induction ss with
  | nil => intro base; rfl
  | cons s t ih =>
    intro base
    rw [collectSheets, allSheets, List.filter_append, ih, collectRows_eq_filter]

theorem allRowCells_bounds (cols : List MbeColumn) :
    ∀ cells off, ∀ e ∈ allRowCells cols cells off,
      off ≤ e.1 ∧ e.1 + 8 ≤ off + rowStride cols := by
  induction cols with
  | nil => intro cells off e he; cases he
  | cons c cs ih =>
    intro cells off e he
    have hw : 4 ≤ c.type.width := by cases c.type <;> simp [ColumnType.width]
    rw [allRowCells] at he
    rcases List.mem_append.1 he with he | he
    · cases hc : c.type <;> rw [hc] at he
      · cases he
      all_goals {
        rcases List.mem_singleton.1 he with rfl
        refine ⟨Nat.le_refl _, ?_⟩
        have : rowStride (c :: cs) = c.type.width + rowStride cs := rfl
        rw [this, hc]
        simp [ColumnType.width]
      }
    · rcases ih cells.tail (off + c.type.width) e he with ⟨h1, h2⟩
      have : rowStride (c :: cs) = c.type.width + rowStride cs := rfl
      omega

theorem allRowCells_pairwise (cols : List MbeColumn) :
    ∀ cells off, List.Pairwise (fun a b : Nat × List Nat => a.1 < b.1)
      (allRowCells cols cells off) := by
  induction cols with
  | nil => intro cells off; exact List.Pairwise.nil
  | cons c cs ih =>
    intro cells off
    have hw : 4 ≤ c.type.width := by cases c.type <;> simp [ColumnType.width]
    rw [allRowCells]
    refine List.pairwise_append.2 ⟨?_, ih cells.tail (off + c.type.width), ?_⟩
    · cases c.type
      · exact List.Pairwise.nil
      all_goals exact List.pairwise_singleton _ _
    · intro a ha b hb
      have hb1 := (allRowCells_bounds cs cells.tail (off + c.type.width) b hb).1
      cases hc : c.type <;> rw [hc] at ha
      · cases ha
      all_goals {
        rcases List.mem_singleton.1 ha with rfl
        simp only []
        omega
      }

theorem allRows_bounds (cols : List MbeColumn) (rows : List MbeRow) :
    ∀ off, ∀ e ∈ allRows cols rows off (rowStride cols),
      off ≤ e.1 ∧ e.1 + 8 ≤ off + rows.length * rowStride cols := by
  induction rows with
  | nil => intro off e he; cases he
  | cons r rs ih =>
    intro off e he
    rw [allRows] at he
    have hmul : (r :: rs).length * rowStride cols =
        rowStride cols + rs.length * rowStride cols := by
      simp [List.length_cons]
      ring
    rcases List.mem_append.1 he with he | he
    · rcases allRowCells_bounds cols r.cells off e he with ⟨h1, h2⟩
      omega
    · rcases ih (off + rowStride cols) e he with ⟨h1, h2⟩
      omega

theorem allRows_pairwise (cols : List MbeColumn) (rows : List MbeRow) :
    ∀ off, List.Pairwise (fun a b : Nat × List Nat => a.1 < b.1)
      (allRows cols rows off (rowStride cols)) := by
  induction rows with
  | nil => intro off; exact List.Pairwise.nil
  | cons r rs ih =>
    intro off
    rw [allRows]
    refine List.pairwise_append.2 ⟨allRowCells_pairwise cols r.cells off,
      ih (off + rowStride cols), ?_⟩
    intro a ha b hb
    have ha2 := (allRowCells_bounds cols r.cells off a ha).2
    have hb1 := (allRows_bounds cols rs (off + rowStride cols) b hb).1
    omega

theorem allSheets_bounds (ss : List MbeSheet) :
    ∀ base, ∀ e ∈ allSheets ss base,
      base ≤ e.1 ∧ e.1 + 8 ≤ base + structSize ss := by
  induction ss with
  | nil => intro base e he; cases he
  | cons s t ih =>
    intro base e he
    rw [allSheets] at he
    have hsz : structSize (s :: t) = rowStride s.columns * s.rows.length +
        structSize t := rfl
    have hc : s.rows.length * rowStride s.columns =
        rowStride s.columns * s.rows.length := Nat.mul_comm _ _
    rcases List.mem_append.1 he with he | he
    · rcases allRows_bounds s.columns s.rows base e he with ⟨h1, h2⟩
      omega
    · rcases ih (base + rowStride s.columns * s.rows.length) e he with ⟨h1, h2⟩
      omega

theorem allSheets_pairwise (ss : List MbeSheet) :
    ∀ base, List.Pairwise (fun a b : Nat × List Nat => a.1 < b.1)
      (allSheets ss base) := by
  induction ss with
  | nil => intro base; exact List.Pairwise.nil
  | cons s t ih =>
    intro base
    rw [allSheets]
    refine List.pairwise_append.2 ⟨allRows_pairwise s.columns s.rows base, ih _, ?_⟩
    intro a ha b hb
    have ha2 := (allRows_bounds s.columns s.rows base a ha).2
    have hb1 := (allSheets_bounds t (base + rowStride s.columns * s.rows.length)
      b hb).1
    have hc : s.rows.length * rowStride s.columns =
        rowStride s.columns * s.rows.length := Nat.mul_comm _ _
    omega

theorem pairwise_key_eq {l : List (Nat × List Nat)}
    (h : List.Pairwise (fun a b => a.1 < b.1) l) :
    ∀ p ∈ l, ∀ q ∈ l, p.1 = q.1 → p = q := by
  induction l with
  | nil => intro p hp; cases hp
  | cons x xs ih =>
    intro p hp q hq hpq
    rcases List.mem_cons.1 hp with rfl | hp' <;> rcases List.mem_cons.1 hq with rfl | hq'
    · rfl
    · exact absurd hpq (Nat.ne_of_lt ((List.pairwise_cons.1 h).1 q hq'))
    · exact absurd hpq.symm (Nat.ne_of_lt ((List.pairwise_cons.1 h).1 p hp'))
    · exact ih (List.pairwise_cons.1 h).2 p hp' q hq' hpq

theorem lookupMap_eq_none (l : ChnkMap) (k : Nat) (h : ∀ p ∈ l, p.1 ≠ k) :
    lookupMap l k = none := by
  rw [lookupMap, List.find?_eq_none.2]
  · rfl
  · intro x hx
    simp [h x hx]

theorem lookupMap_of_mem_distinct :
    ∀ l : ChnkMap, List.Pairwise (fun a b => a.1 ≠ b.1) l →
      ∀ k v, (k, v) ∈ l → lookupMap l k = some v := by
  intro l
  induction l with
  | nil => intro _ k v hv; cases hv
  | cons x xs ih =>
    intro hp k v hv
    rcases List.mem_cons.1 hv with rfl | hv'
    · rw [lookupMap, List.find?_cons_of_pos _ (by simp)]
      rfl
    · have hne : x.1 ≠ k := by
        have := (List.pairwise_cons.1 hp).1 (k, v) hv'
        simpa using this
      rw [lookupMap, List.find?_cons_of_neg _ (by simp [hne])]
      exact ih (List.pairwise_cons.1 hp).2 k v hv'

theorem chnkMap_lookup (f : MbeFile)
    (hnul : ∀ e ∈ collectEntries f, e.2.takeWhile (fun b => b != 0) = e.2) :
    ∀ p ∈ allSheets f.sheets (totalHeaderSize f),
      lookupMap (((poolEntries f).map entryKV).reverse) p.1 =
        if p.2 = [] then none else some p.2 := by
  intro p hp
  have hall_pw := allSheets_pairwise f.sheets (totalHeaderSize f)
  have hfilter : collectEntries f =
      (allSheets f.sheets (totalHeaderSize f)).filter (fun e => !e.2.isEmpty) :=
    collectSheets_eq_filter f.sheets (totalHeaderSize f)
  have hpool : poolEntries f = collectEntries f :=
    sortEntries_of_sorted _
      ((collectSheets_pairwise f.sheets (totalHeaderSize f)).imp Nat.le_of_lt)
  by_cases hempty : p.2 = []
  · rw [if_pos hempty]
    apply lookupMap_eq_none
    intro q hq
    rw [List.mem_reverse] at hq
    obtain ⟨e, he, rfl⟩ := List.mem_map.1 hq
    rw [hpool, hfilter] at he
    have he' := List.mem_filter.1 he
    intro hk
    have hkey : e.1 = p.1 := hk
    have := pairwise_key_eq hall_pw e he'.1 p hp hkey
    rw [this] at he'
    rw [hempty] at he'
    simp at he'
  · rw [if_neg hempty]
    have hpc : p ∈ collectEntries f := by
      rw [hfilter]
      exact List.mem_filter.2 ⟨hp, by simp [hempty]⟩
    have hmem : entryKV p ∈ ((poolEntries f).map entryKV).reverse := by
      rw [List.mem_reverse]
      exact List.mem_map_of_mem _ (by rw [hpool]; exact hpc)
    have hpw : List.Pairwise (fun a b : Nat × List Nat => a.1 ≠ b.1)
        (((poolEntries f).map entryKV).reverse) := by
      rw [List.pairwise_reverse, List.pairwise_map]
      have hsub : (poolEntries f).Sublist (allSheets f.sheets (totalHeaderSize f)) := by
        rw [hpool, hfilter]
        exact List.filter_sublist _
      exact (List.Pairwise.sublist hsub hall_pw).imp
        (fun hab hx => absurd hx.symm (Nat.ne_of_lt hab))
    have hv : entryKV p = (p.1, p.2) := by
      rw [entryKV, hnul p hpc]
    rw [hv] at hmem
    have := lookupMap_of_mem_distinct _ hpw p.1 p.2 hmem
    exact this

/-! ### Claim C1 machinery, stage E: materialisation round-trip -/

/-- Per-cell well-formedness for the round trip: kind agreement with the
column, signed 32-bit range for integers, NUL-free bytes for strings. -/
def cellOk : MbeColumn → CellValue → Prop
  | c, .intVal v => c.type = .INT ∧ -(2 ^ 31) ≤ v ∧ v < 2 ^ 31
  | c, .strVal s => (c.type = .STR ∨ c.type = .STRID) ∧ ∀ b ∈ s, b ≠ 0

instance (c : MbeColumn) (v : CellValue) : Decidable (cellOk c v) :=
  match v with
  | .intVal w =>
    inferInstanceAs (Decidable (c.type = .INT ∧ -(2 ^ 31) ≤ w ∧ w < 2 ^ 31))
  | .strVal s =>
    inferInstanceAs (Decidable ((c.type = .STR ∨ c.type = .STRID) ∧ ∀ b ∈ s, b ≠ 0))

theorem rowCellsP_rt (cols : List MbeColumn) :
    ∀ (cells : List CellValue) (m : ChnkMap) (buf pre post : List Nat) (off : Nat),
      cells.length = cols.length →
      (∀ p ∈ cols.zip cells, cellOk p.1 p.2) →
      buf = pre ++ rowStructBytes cols cells ++ post →
      off = pre.length →
      (∀ p ∈ allRowCells cols cells off,
        lookupMap m p.1 = if p.2 = [] then none else some p.2) →
      rowCellsP buf m cols off = cells := by
  induction cols with
  | nil =>
    intro cells m buf pre post off hlen _ _ _ _
    cases cells with
    | nil => rfl
    | cons x xs => simp at hlen
  | cons c cs ih =>
    intro cells m buf pre post off hlen hok hbuf hoff hmap
    cases cells with
    | nil => simp at hlen
    | cons x xs =>
      have hx : cellOk c x := hok (c, x) (by simp [List.zip_cons_cons])
      have hbuf' : buf = pre ++ cellBytes c.type (some x) ++
          (rowStructBytes cs xs ++ post) := by
        rw [hbuf, rowStructBytes]
        simp [List.append_assoc]
      have htail : rowCellsP buf m cs (off + c.type.width) = xs := by
        refine ih xs m buf (pre ++ cellBytes c.type (some x)) post
          (off + c.type.width) (by simpa using hlen)
          (fun p hp => hok p (by simp [List.zip_cons_cons, hp])) ?_ ?_ ?_
        · simp [hbuf', List.append_assoc]
        · simp only [List.length_append, length_cellBytes]
          omega
        · intro p hp
          refine hmap p ?_
          rw [allRowCells]
          exact List.mem_append.2 (Or.inr (by simpa using hp))
      rw [rowCellsP, htail]
      congr 1
      cases x with
      | intVal v =>
        obtain ⟨hc, hv1, hv2⟩ := hx
        have hcell : cellBytes c.type (some (CellValue.intVal v)) = i32LE v := by
          rw [hc]
          rfl
        have hb : ¬(off + 4 > buf.length) := by
          rw [hbuf']
          simp only [List.length_append, hcell, length_i32LE]
          omega
        rw [hc]
        simp only [readCellP]
        rw [if_neg hb]
        rw [getI32_at pre (rowStructBytes cs xs ++ post) v off
          (by rw [hbuf', hcell]) hoff hv1 hv2]
      | strVal s =>
        obtain ⟨hc, hnul⟩ := hx
        have hmem : (off, s) ∈ allRowCells (c :: cs) (CellValue.strVal s :: xs) off := by
          rw [allRowCells]
          refine List.mem_append.2 (Or.inl ?_)
          rcases hc with hc | hc <;> rw [hc] <;> simp [jsCellString]
        have hlk := hmap (off, s) hmem
        by_cases hs : s = []
        · rw [if_pos hs] at hlk
          subst hs
          rcases hc with hc | hc <;> rw [hc] <;> simp [readCellP, hlk]
        · rw [if_neg hs] at hlk
          rcases hc with hc | hc <;> rw [hc] <;> simp [readCellP, hlk]

theorem buildRowsP_rt (cols : List MbeColumn) (rows : List MbeRow) :
    ∀ (m : ChnkMap) (buf pre post : List Nat) (off : Nat),
      (∀ r ∈ rows, r.cells.length = cols.length ∧
        ∀ p ∈ cols.zip r.cells, cellOk p.1 p.2) →
      buf = pre ++ rowsStructBytes cols rows ++ post →
      off = pre.length →
      (∀ p ∈ allRows cols rows off (rowStride cols),
        lookupMap m p.1 = if p.2 = [] then none else some p.2) →
      buildRowsP buf m cols (rowStride cols) rows.length off =
        rows.map (fun r => { id := "", cells := r.cells }) := by
  induction rows with
  | nil => intro m buf pre post off _ _ _ _; rfl
  | cons r rs ih =>
    intro m buf pre post off hok hbuf hoff hmap
    have hbuf' : buf = pre ++ rowStructBytes cols r.cells ++
        (rowsStructBytes cols rs ++ post) := by
      rw [hbuf, rowsStructBytes]
      simp [List.append_assoc]
    have hhead : rowCellsP buf m cols off = r.cells := by
      refine rowCellsP_rt cols r.cells m buf pre
        (rowsStructBytes cols rs ++ post) off (hok r (by simp)).1
        (hok r (by simp)).2 hbuf' hoff ?_
      intro p hp
      refine hmap p ?_
      rw [allRows]
      exact List.mem_append.2 (Or.inl hp)
    have htail : buildRowsP buf m cols (rowStride cols) rs.length
        (off + rowStride cols) = rs.map (fun r => { id := "", cells := r.cells }) := by
      refine ih m buf (pre ++ rowStructBytes cols r.cells) post
        (off + rowStride cols) (fun u hu => hok u (by simp [hu])) ?_ ?_ ?_
      · simp [hbuf', List.append_assoc]
      · simp only [List.length_append, length_rowStructBytes]
        omega
      · intro p hp
        refine hmap p ?_
        rw [allRows]
        exact List.mem_append.2 (Or.inr hp)
    show buildRowsP buf m cols (rowStride cols) (rs.length + 1) off = _
    rw [buildRowsP, hhead, htail, List.map_cons]

theorem materialiseSheets_rt (ss : List MbeSheet) :
    ∀ (m : ChnkMap) (buf pre post : List Nat) (base : Nat),
      (∀ s ∈ ss, ∀ r ∈ s.rows, r.cells.length = s.columns.length ∧
        ∀ p ∈ s.columns.zip r.cells, cellOk p.1 p.2) →
      buf = pre ++ structBytes ss ++ post →
      base = pre.length →
      (∀ p ∈ allSheets ss base,
        lookupMap m p.1 = if p.2 = [] then none else some p.2) →
      materialiseSheets buf m (ss.map toHeader) base =
        ss.map (fun s =>
          { name := s.name.takeWhile (fun b => b != 0), columns := s.columns,
            rows := s.rows.map (fun r => { id := "", cells := r.cells }),
            parsedExpaAreaSizePerRow := rowStride s.columns }) := by
  induction ss with
  | nil => intro m buf pre post base _ _ _ _; rfl
  | cons s t ih =>
    intro m buf pre post base hok hbuf hbase hmap
    have hbuf' : buf = pre ++ rowsStructBytes s.columns s.rows ++
        (structBytes t ++ post) := by
      rw [hbuf, structBytes]
      simp [List.append_assoc]
    have hhead : buildRowsP buf m s.columns (rowStride s.columns) s.rows.length base =
        s.rows.map (fun r => { id := "", cells := r.cells }) := by
      refine buildRowsP_rt s.columns s.rows m buf pre (structBytes t ++ post) base
        (hok s (by simp)) hbuf' hbase ?_
      intro p hp
      refine hmap p ?_
      rw [allSheets]
      exact List.mem_append.2 (Or.inl hp)
    have htail : materialiseSheets buf m (t.map toHeader)
        (base + rowStride s.columns * s.rows.length) =
        t.map (fun s =>
          { name := s.name.takeWhile (fun b => b != 0), columns := s.columns,
            rows := s.rows.map (fun r => { id := "", cells := r.cells }),
            parsedExpaAreaSizePerRow := rowStride s.columns }) := by
      refine ih m buf (pre ++ rowsStructBytes s.columns s.rows) post
        (base + rowStride s.columns * s.rows.length)
        (fun u hu => hok u (by simp [hu])) ?_ ?_ ?_
      · simp [hbuf', List.append_assoc]
      · simp only [List.length_append, length_rowsStructBytes]
        omega
      · intro p hp
        refine hmap p ?_
        rw [allSheets]
        exact List.mem_append.2 (Or.inr hp)
    rw [List.map_cons, materialiseSheets, List.map_cons,
      show (toHeader s).expaAreaSizePerRow = rowStride s.columns from rfl,
      show (toHeader s).expaRowCount = s.rows.length from rfl, htail]
    congr 1
    simp [materialiseSheet, toHeader, hhead]

/-! ### Claim C1, stage F: assembly -/

/-- Wire-width side conditions for the whole file: every u32 quantity the
generator writes fits in 32 bits. -/
structure WireOk (f : MbeFile) : Prop where
  sheets_lt : f.sheets.length < 2 ^ 32
  sheet_ok : ∀ s ∈ f.sheets, s.name.length + 5 < 2 ^ 32 ∧ s.columns.length < 2 ^ 32 ∧
    rowStride s.columns < 2 ^ 32 ∧ s.rows.length < 2 ^ 32
  entries_lt : (collectEntries f).length < 2 ^ 32
  entry_ok : ∀ e ∈ collectEntries f, e.1 < 2 ^ 32 ∧ e.2.length + 5 < 2 ^ 32

/-- All cells agree in kind with their columns, integers fit in i32, strings
and are NUL-free, and rows have one cell per column. -/
def CellsOk (f : MbeFile) : Prop :=
  ∀ s ∈ f.sheets, ∀ r ∈ s.rows, r.cells.length = s.columns.length ∧
    ∀ p ∈ s.columns.zip r.cells, cellOk p.1 p.2

/-- Sheet names contain no NUL byte. -/
def NamesOk (f : MbeFile) : Prop :=
  ∀ s ∈ f.sheets, ∀ b ∈ s.name, b ≠ 0

instance (f : MbeFile) : Decidable (CellsOk f) :=
  inferInstanceAs (Decidable (∀ s ∈ f.sheets, ∀ r ∈ s.rows,
    r.cells.length = s.columns.length ∧
    ∀ p ∈ s.columns.zip r.cells, cellOk p.1 p.2))

instance (f : MbeFile) : Decidable (NamesOk f) :=
  inferInstanceAs (Decidable (∀ s ∈ f.sheets, ∀ b ∈ s.name, b ≠ 0))

theorem allRowCells_values_nulFree (cols : List MbeColumn) :
    ∀ cells off, cells.length = cols.length →
      (∀ p ∈ cols.zip cells, cellOk p.1 p.2) →
      ∀ e ∈ allRowCells cols cells off, ∀ b ∈ e.2, b ≠ 0 := by
  induction cols with
  | nil => intro cells off _ _ e he; cases he
  | cons c cs ih =>
    intro cells off hlen hok e he
    cases cells with
    | nil => simp at hlen
    | cons x xs =>
      have hx : cellOk c x := hok (c, x) (by simp [List.zip_cons_cons])
      rw [allRowCells] at he
      rcases List.mem_append.1 he with he | he
      · cases hc : c.type <;> rw [hc] at he
        · cases he
        all_goals {
          rcases List.mem_singleton.1 he with rfl
          cases x with
          | intVal v =>
            obtain ⟨hcc, _⟩ := hx
            rw [hc] at hcc
            cases hcc
          | strVal s =>
            obtain ⟨_, hnul⟩ := hx
            simpa [jsCellString] using hnul
        }
      · exact ih xs (off + c.type.width) (by simpa using hlen)
          (fun p hp => hok p (by simp [List.zip_cons_cons, hp])) e he

theorem allRows_values_nulFree (cols : List MbeColumn) (rows : List MbeRow) :
    ∀ off stride,
      (∀ r ∈ rows, r.cells.length = cols.length ∧
        ∀ p ∈ cols.zip r.cells, cellOk p.1 p.2) →
      ∀ e ∈ allRows cols rows off stride, ∀ b ∈ e.2, b ≠ 0 := by
  induction rows with
  | nil => intro off stride _ e he; cases he
  | cons r rs ih =>
    intro off stride hok e he
    rw [allRows] at he
    rcases List.mem_append.1 he with he | he
    · exact allRowCells_values_nulFree cols r.cells off (hok r (by simp)).1
        (hok r (by simp)).2 e he
    · exact ih (off + stride) stride (fun u hu => hok u (by simp [hu])) e he

theorem allSheets_values_nulFree (ss : List MbeSheet) :
    ∀ base,
      (∀ s ∈ ss, ∀ r ∈ s.rows, r.cells.length = s.columns.length ∧
        ∀ p ∈ s.columns.zip r.cells, cellOk p.1 p.2) →
      ∀ e ∈ allSheets ss base, ∀ b ∈ e.2, b ≠ 0 := by
  induction ss with
  | nil => intro base _ e he; cases he
  | cons s t ih =>
    intro base hok e he
    rw [allSheets] at he
    rcases List.mem_append.1 he with he | he
    · exact allRows_values_nulFree s.columns s.rows base (rowStride s.columns)
        (hok s (by simp)) e he
    · exact ih _ (fun u hu => hok u (by simp [hu])) e he

theorem collectEntries_nulFree (f : MbeFile) (hcells : CellsOk f) :
    ∀ e ∈ collectEntries f, e.2.takeWhile (fun b => b != 0) = e.2 := by
  intro e he
  have hsub : e ∈ allSheets f.sheets (totalHeaderSize f) := by
    rw [collectEntries, collectSheets_eq_filter] at he
    exact (List.mem_filter.1 he).1
  exact takeWhile_of_nulFree e.2
    (allSheets_values_nulFree f.sheets (totalHeaderSize f) hcells e hsub)

theorem sumStrides_toHeader (ss : List MbeSheet) :
    sumStrides (ss.map toHeader) = structSize ss := by
  induction ss with
  | nil => rfl
  | cons s t ih => simp [sumStrides, structSize, toHeader, ih]

theorem parsePrefix_generated (f : MbeFile) (hinv : ModelInv f) (hwire : WireOk f) :
    parsePrefix (generateMbeFile f) =
      .ok (f.sheets.map toHeader, totalHeaderSize f,
        ((poolEntries f).map entryKV).reverse) := by
  have hgen : generateMbeFile f = expaMagic ++
      (u32LE f.sheets.length ++ (headersBytes 8 f.sheets ++ (structBytes f.sheets ++
        chnkBlock (8 + (headersBytes 8 f.sheets).length + (structBytes f.sheets).length)
          (poolEntries f)))) := by
    rw [generateMbeFile]
    simp [List.append_assoc]
  have hmagic : checkMagicFrom (generateMbeFile f) expaMagic 0 = .ok () := by
    rw [hgen]
    rfl
  have hsc : getU32E (generateMbeFile f) 4 = .ok f.sheets.length := by
    refine getU32E_at expaMagic
      (headersBytes 8 f.sheets ++ (structBytes f.sheets ++
        chnkBlock (8 + (headersBytes 8 f.sheets).length + (structBytes f.sheets).length)
          (poolEntries f)))
      _ _ ?_ (by simp [expaMagic]) hwire.sheets_lt
    rw [hgen]
    simp [List.append_assoc]
  have hpre8 : (expaMagic ++ u32LE f.sheets.length).length = 8 := by
    simp [expaMagic, length_u32LE]
  have hheaders : parseSheetHeaders (generateMbeFile f) f.sheets.length 8 =
      .ok (f.sheets.map toHeader, 8 + (headersBytes 8 f.sheets).length) := by
    have hok : ∀ s ∈ f.sheets, SheetWireOk s := by
      intro s hs
      obtain ⟨h1, h2, h3, h4⟩ := hwire.sheet_ok s hs
      exact ⟨h1, h2, h3, h4, (hinv s hs).1⟩
    have hP := parseSheetHeaders_rt f.sheets hok (expaMagic ++ u32LE f.sheets.length)
      (structBytes f.sheets ++
        chnkBlock (8 + (headersBytes 8 f.sheets).length + (structBytes f.sheets).length)
          (poolEntries f))
    rw [hpre8] at hP
    have heq : expaMagic ++ u32LE f.sheets.length ++ headersBytes 8 f.sheets ++
        (structBytes f.sheets ++
          chnkBlock
            (8 + (headersBytes 8 f.sheets).length + (structBytes f.sheets).length)
            (poolEntries f)) = generateMbeFile f := by
      rw [hgen]
      simp [List.append_assoc]
    rw [heq] at hP
    exact hP
  have hbase : (expaMagic ++ u32LE f.sheets.length ++ headersBytes 8 f.sheets ++
      structBytes f.sheets).length =
      8 + (headersBytes 8 f.sheets).length + (structBytes f.sheets).length := by
    simp only [List.length_append, length_u32LE, expaMagic, List.length_cons,
      List.length_nil]
  have hchnk : chnkPhase (generateMbeFile f)
      (8 + (headersBytes 8 f.sheets).length + (structBytes f.sheets).length) =
      .ok (((poolEntries f).map entryKV).reverse) := by
    have hok : ∀ e ∈ poolEntries f, e.1 < 2 ^ 32 ∧ e.2.length + 5 < 2 ^ 32 := by
      intro e he
      exact hwire.entry_ok e ((mem_sortEntries e _).1 he)
    have hcnt : (poolEntries f).length < 2 ^ 32 := by
      rw [poolEntries, length_sortEntries]
      exact hwire.entries_lt
    have hC := chnkPhase_generated
      (expaMagic ++ u32LE f.sheets.length ++ headersBytes 8 f.sheets ++
        structBytes f.sheets) (poolEntries f) hok hcnt
    rw [hbase] at hC
    have heq : expaMagic ++ u32LE f.sheets.length ++ headersBytes 8 f.sheets ++
        structBytes f.sheets ++
        chnkBlock
          (8 + (headersBytes 8 f.sheets).length + (structBytes f.sheets).length)
          (poolEntries f) = generateMbeFile f := by
      rw [hgen]
      simp [List.append_assoc]
    rw [heq] at hC
    exact hC
  rw [parsePrefix, hmagic]
  simp only [ok_bind]
  rw [hsc]
  simp only [ok_bind]
  rw [hheaders]
  simp only [ok_bind]
  rw [show (8 + (headersBytes 8 f.sheets).length + sumStrides (f.sheets.map toHeader)) =
    8 + (headersBytes 8 f.sheets).length + (structBytes f.sheets).length from by
      rw [sumStrides_toHeader, length_structBytes]]
  rw [hchnk]
  simp only [ok_bind]
  rw [show totalHeaderSize f = 8 + (headersBytes 8 f.sheets).length from
    prelimFold_eq_headersBytes f.sheets 8]

/-! ### Claim C1: the round trip -/

/-- Image of a file under generate-then-parse when all string bytes are
NUL-free: names, columns and cell values survive, row identity tokens become
empty, and the stride hint becomes the computed stride. -/
def roundTripImage (f : MbeFile) : MbeFile :=
  { sheets := f.sheets.map (fun s =>
      { name := s.name, columns := s.columns,
        rows := s.rows.map (fun r => { id := "", cells := r.cells }),
        parsedExpaAreaSizePerRow := rowStride s.columns }) }

/-- C1 (amended): for a file satisfying the model invariants whose sheet
names and string cells are NUL-free, whose integer cells fit in signed 32
bits and whose counts and lengths fit in u32, parsing the generated bytes
succeeds and yields the file up to wire-irrelevant metadata (row identity
tokens and the `parsedExpaAreaSizePerRow` hint). The unrestricted claim is
false: a NUL byte inside a string cell is truncated on parse (see the
counterexample). -/
theorem c1_roundtrip (f : MbeFile) (hinv : ModelInv f) (hcells : CellsOk f)
    (hnames : NamesOk f) (hwire : WireOk f) :
    parseMbeFile (generateMbeFile f) = .ok (roundTripImage f) ∧
    FileEquiv f (roundTripImage f) := by
  have hbuf : generateMbeFile f =
      (expaMagic ++ u32LE f.sheets.length ++ headersBytes 8 f.sheets) ++
        structBytes f.sheets ++
        chnkBlock (8 + (headersBytes 8 f.sheets).length + (structBytes f.sheets).length)
          (poolEntries f) := by
    rw [generateMbeFile]
  have hbase : totalHeaderSize f =
      (expaMagic ++ u32LE f.sheets.length ++ headersBytes 8 f.sheets).length := by
    rw [show totalHeaderSize f = 8 + (headersBytes 8 f.sheets).length from
      prelimFold_eq_headersBytes f.sheets 8]
    simp only [List.length_append, length_u32LE, expaMagic, List.length_cons,
      List.length_nil]
  have hmat : materialiseSheets (generateMbeFile f)
      (((poolEntries f).map entryKV).reverse) (f.sheets.map toHeader)
      (totalHeaderSize f) = (roundTripImage f).sheets := by
    have h := materialiseSheets_rt f.sheets (((poolEntries f).map entryKV).reverse)
      (generateMbeFile f)
      (expaMagic ++ u32LE f.sheets.length ++ headersBytes 8 f.sheets)
      (chnkBlock (8 + (headersBytes 8 f.sheets).length + (structBytes f.sheets).length)
        (poolEntries f))
      (totalHeaderSize f) hcells hbuf hbase
      (chnkMap_lookup f (collectEntries_nulFree f hcells))
    rw [h, roundTripImage]
    refine List.map_congr_left ?_
    intro s hs
    rw [takeWhile_of_nulFree s.name (hnames s hs)]
  constructor
  · have hpp := parsePrefix_generated f hinv hwire
    simp only [parseMbeFile, hpp]
    rw [hmat]
  · show eraseMeta f = eraseMeta (roundTripImage f)
    simp [eraseMeta, roundTripImage, eraseSheet, eraseRow, List.map_map,
      Function.comp]

/-- A one-sheet file whose single `STR` cell holds the bytes `[0, 97]`
(the string "\u0000a"): an invariant-respecting input that does not round
trip. -/
def nulCellFile : MbeFile :=
  ⟨[⟨[115], [⟨.STR, .str⟩], [⟨"", [.strVal [0, 97]]⟩], 0⟩]⟩

/-- What the parser actually returns on `generateMbeFile nulCellFile`: the
cell truncated at its first NUL, i.e. the empty string. -/
def nulCellParsed : MbeFile :=
  ⟨[⟨[115], [⟨.STR, .str⟩], [⟨"", [.strVal []]⟩], 8⟩]⟩

/-- C1 counterexample: `nulCellFile` satisfies the model invariants, yet
parsing its generated bytes yields `nulCellParsed`, whose cell value differs
from the original, so the round trip is not an equivalence on all files. -/
theorem c1_counterexample :
    ModelInv nulCellFile ∧
    parseMbeFile (generateMbeFile nulCellFile) = .ok nulCellParsed ∧
    ¬ FileEquiv nulCellFile nulCellParsed := by
  refine ⟨by decide, by rfl, by decide⟩

/-- A one-sheet file with an `INT` column and a `STRID` column, one row with
cells `(7, "hi")`, and a stale stride hint: concrete instance for the C1
witness. -/
def mixedFile : MbeFile :=
  ⟨[⟨[109], [⟨.INT, .int⟩, ⟨.STRID, .strID⟩],
    [⟨"", [.intVal 7, .strVal [104, 105]]⟩], 99⟩]⟩

/-- Witness for C1 at `mixedFile`: the hypotheses hold by computation and
the round trip returns the expected image. -/
theorem c1_roundtrip_witness :
    (ModelInv mixedFile ∧ CellsOk mixedFile ∧ NamesOk mixedFile) ∧
    parseMbeFile (generateMbeFile mixedFile) = .ok (roundTripImage mixedFile) ∧
    FileEquiv mixedFile (roundTripImage mixedFile) :=
  ⟨⟨by decide, by decide, by decide⟩,
    c1_roundtrip mixedFile (by decide) (by decide) (by decide)
      ⟨by decide, by decide, by decide, by decide⟩⟩

/-- A one-sheet file with one empty and one non-empty string cell: concrete
instance for the C8 witness. -/
def strPairFile : MbeFile :=
  ⟨[⟨[115], [⟨.STR, .str⟩],
    [⟨"", [.strVal []]⟩, ⟨"", [.strVal [111, 107]]⟩], 0⟩]⟩

/-- Witness for C8 at `strPairFile`: one pool entry for the non-empty string
cell, none for the empty one, and the CHNK magic and count field follow the
structural block. -/
theorem c8_pool_exactness_witness :
    ModelInv strPairFile ∧
    ((poolEntries strPairFile).length = nonemptyStrCellCount strPairFile ∧
     (nonemptyStrCellCount strPairFile = 0 →
       (generateMbeFile strPairFile).length =
         8 + (headersBytes 8 strPairFile.sheets).length +
           (structBytes strPairFile.sheets).length) ∧
     (0 < nonemptyStrCellCount strPairFile →
       ((generateMbeFile strPairFile).drop
           (8 + (headersBytes 8 strPairFile.sheets).length +
             (structBytes strPairFile.sheets).length)).take 4 = chnkMagic ∧
       ((generateMbeFile strPairFile).drop
           (8 + (headersBytes 8 strPairFile.sheets).length +
             (structBytes strPairFile.sheets).length + 4)).take 4 =
         u32LE (nonemptyStrCellCount strPairFile))) :=
  ⟨by decide, c8_pool_exactness strPairFile (by decide)⟩

/-! ### Claim C3: the full error contract -/

theorem err_bind {α β : Type} (e : ParseErr) (k : α → Except ParseErr β) :
    (Except.error e >>= k) = .error e := rfl

theorem parsePrefix_eq (buf : List Nat) :
    parsePrefix buf =
      checkMagicFrom buf expaMagic 0 >>= fun _ =>
        getU32E buf 4 >>= fun sheetCount =>
          parseSheetHeaders buf sheetCount 8 >>= fun ph =>
            chnkPhase buf (ph.2 + sumStrides ph.1) >>= fun m =>
              .ok (ph.1, ph.2, m) := rfl

theorem parseSheetHeaders_succ (buf : List Nat) (n off : Nat) :
    parseSheetHeaders buf (n + 1) off =
      getU32E buf off >>= fun nameLen =>
        getU32E buf (off + 4 + nameLen) >>= fun colCount =>
          parseColumnTypes buf (readString buf (off + 4) nameLen) colCount
              (off + 8 + nameLen) 0 >>= fun cols =>
            getU32E buf (off + 8 + nameLen + 4 * colCount) >>= fun areaSize =>
              getU32E buf (off + 12 + nameLen + 4 * colCount) >>= fun rowCount =>
                parseSheetHeaders buf n (off + 16 + nameLen + 4 * colCount) >>=
                  fun rest =>
                    .ok ({ name := readString buf (off + 4) nameLen,
                           columns := cols, expaAreaSizePerRow := areaSize,
                           expaRowCount := rowCount } :: rest.1, rest.2) := rfl

theorem parseColumnTypes_succ (buf name : List Nat) (n off j : Nat) :
    parseColumnTypes buf name (n + 1) off j =
      getU32E buf off >>= fun v =>
        (match v with
         | 2 => Except.ok ColumnType.INT
         | 7 => Except.ok ColumnType.STR
         | 8 => Except.ok ColumnType.STRID
         | _ => Except.error (ParseErr.unknownColumnType v name j)) >>= fun t =>
          parseColumnTypes buf name n (off + 4) (j + 1) >>= fun rest =>
            .ok ({ type := t, typeName := t.typeName } :: rest) := rfl

theorem checkMagic_of_take (buf : List Nat) (h : buf.take 4 = expaMagic) :
    checkMagicFrom buf expaMagic 0 = .ok () := by
  rcases buf with _ | ⟨a, _ | ⟨b, _ | ⟨c, _ | ⟨d, t⟩⟩⟩⟩
  · simp [expaMagic] at h
  · simp [expaMagic] at h
  · simp [expaMagic] at h
  · simp [expaMagic] at h
  · simp only [List.take, expaMagic, List.cons.injEq, and_true] at h
    obtain ⟨h1, h2, h3, h4⟩ := h
    subst h1; subst h2; subst h3; subst h4
    rfl

theorem getU32E_err_iff (buf : List Nat) (i : Nat) (e : ParseErr) :
    getU32E buf i = .error e ↔ e = .rangeError ∧ buf.length < i + 4 := by
  by_cases h : i + 4 ≤ buf.length
  · have hok : getU32E buf i = .ok (bytesToNat ((buf.drop i).take 4)) := by
      simp [getU32E, getU32?, h]
    rw [hok]
    constructor
    · intro hh
      simp at hh
    · rintro ⟨h1, h2⟩
      omega
  · have herr : getU32E buf i = .error .rangeError := by
      simp [getU32E, getU32?, h]
    rw [herr]
    simp only [Except.error.injEq]
    constructor
    · intro he
      exact ⟨he.symm, by omega⟩
    · rintro ⟨he, h2⟩
      exact he.symm

theorem getU32E_oob (buf : List Nat) (i : Nat) (hl : buf.length < i + 4) :
    getU32E buf i = .error .rangeError :=
  (getU32E_err_iff buf i _).2 ⟨rfl, hl⟩

theorem getU32E_ok_of (buf : List Nat) (i v : Nat) (hv : getU32? buf i = some v) :
    getU32E buf i = .ok v := by
  simp [getU32E, hv]

/-- C3 (amended): `parseMbeFile` aborts with the invalid-magic error whenever
the four leading bytes are present but differ from `"EXPA"`, with a
`RangeError` whenever an unchecked fixed-width read runs past end-of-buffer (a
leading magic byte — i.e. the buffer is a proper prefix of `"EXPA"` —, the
sheet count, any sheet-header u32 field, or the CHNK entry count: all u32
fields are read by `getU32E`, which throws `RangeError` exactly when its four
bytes are not all present and throws nothing else), and with the
unknown-column-type error when a column tag outside {2, 7, 8} is read; errors
of the header pass and of the CHNK count read surface unchanged from
`parseMbeFile`, every abort of `parseMbeFile` originates in the fallible
prefix, and whenever that prefix succeeds, parse returns a File built by the
total materialisation pass (best-effort defaults for anomalous pool entries
and row cells). -/
theorem c3_error_contract :
    (∀ buf : List Nat, 4 ≤ buf.length → buf.take 4 ≠ expaMagic →
      parseMbeFile buf = .error .invalidMagic) ∧
    (∀ buf : List Nat, buf.length < 4 → buf = expaMagic.take buf.length →
      parseMbeFile buf = .error .rangeError) ∧
    (∀ buf : List Nat, buf.take 4 = expaMagic → buf.length < 8 →
      parseMbeFile buf = .error .rangeError) ∧
    (∀ (buf : List Nat) (i : Nat) (e : ParseErr),
      getU32E buf i = .error e ↔ e = .rangeError ∧ buf.length < i + 4) ∧
    (∀ (buf name : List Nat) (n off j v : Nat),
      getU32? buf off = some v → v ≠ 2 → v ≠ 7 → v ≠ 8 →
      parseColumnTypes buf name (n + 1) off j =
        .error (.unknownColumnType v name j)) ∧
    (∀ (buf : List Nat) (n off : Nat), buf.length < off + 4 →
      parseSheetHeaders buf (n + 1) off = .error .rangeError) ∧
    (∀ (buf : List Nat) (n off L c : Nat) (e : ParseErr),
      getU32? buf off = some L → getU32? buf (off + 4 + L) = some c →
      parseColumnTypes buf (readString buf (off + 4) L) c (off + 8 + L) 0 =
        .error e →
      parseSheetHeaders buf (n + 1) off = .error e) ∧
    (∀ (buf : List Nat) (n : Nat) (e : ParseErr), buf.take 4 = expaMagic →
      getU32? buf 4 = some n → parseSheetHeaders buf n 8 = .error e →
      parseMbeFile buf = .error e) ∧
    (∀ (buf : List Nat) (start m : Nat),
      findMagic buf chnkMagic start = some m → buf.length < m + 8 →
      chnkPhase buf start = .error .rangeError) ∧
    (∀ (buf : List Nat) (n hEnd : Nat) (hdrs : List HeaderInfo) (e : ParseErr),
      buf.take 4 = expaMagic → getU32? buf 4 = some n →
      parseSheetHeaders buf n 8 = .ok (hdrs, hEnd) →
      chnkPhase buf (hEnd + sumStrides hdrs) = .error e →
      parseMbeFile buf = .error e) ∧
    (∀ (buf : List Nat) (e : ParseErr),
      parseMbeFile buf = .error e ↔ parsePrefix buf = .error e) ∧
    (∀ (buf : List Nat) (hdrs : List HeaderInfo) (hEnd : Nat) (m : ChnkMap),
      parsePrefix buf = .ok (hdrs, hEnd, m) →
      parseMbeFile buf = .ok { sheets := materialiseSheets buf m hdrs hEnd }) := by
  refine ⟨?_, ?_, ?_, ?_, ?_, ?_, ?_, ?_, ?_, ?_, ?_, ?_⟩
  · intro buf h4 hm
    match buf, h4 with
    | a :: b :: c :: d :: t, _ =>
      have hne : ¬(a = 69 ∧ b = 88 ∧ c = 80 ∧ d = 65) := by
        intro hh
        exact hm (by simp [expaMagic, hh.1, hh.2.1, hh.2.2.1, hh.2.2.2])
      have hcm := checkMagic_mismatch a b c d t hne
      have hpp : parsePrefix (a :: b :: c :: d :: t) = .error .invalidMagic := by
        rw [parsePrefix_eq, hcm]
        rfl
      rw [parseMbeFile, hpp]
  · intro buf hlen hpre
    rcases buf with _ | ⟨a, _ | ⟨b, _ | ⟨c, _ | ⟨d, t⟩⟩⟩⟩
    · rfl
    · simp [expaMagic] at hpre
      subst hpre
      rfl
    · simp [expaMagic] at hpre
      obtain ⟨h1, h2⟩ := hpre
      subst h1; subst h2
      rfl
    · simp [expaMagic] at hpre
      obtain ⟨h1, h2, h3⟩ := hpre
      subst h1; subst h2; subst h3
      rfl
    · simp only [List.length_cons] at hlen
      omega
  · intro buf h4 hlen
    have hm := checkMagic_of_take buf h4
    have hpp : parsePrefix buf = .error .rangeError := by
      rw [parsePrefix_eq, hm]
      simp only [ok_bind]
      rw [getU32E_oob buf 4 (by omega)]
      rfl
    rw [parseMbeFile, hpp]
  · exact getU32E_err_iff
  · intro buf name n off j v hv hv2 hv7 hv8
    rw [parseColumnTypes_succ, getU32E_ok_of buf off v hv]
    simp only [ok_bind]
    rfl
  · intro buf n off hl
    rw [parseSheetHeaders_succ, getU32E_oob buf off hl]
    rfl
  · intro buf n off L c e hL hc hcols
    rw [parseSheetHeaders_succ, getU32E_ok_of buf off L hL]
    simp only [ok_bind]
    rw [getU32E_ok_of buf (off + 4 + L) c hc]
    simp only [ok_bind]
    rw [hcols]
    rfl
  · intro buf n e h4 hsc hsh
    have hm := checkMagic_of_take buf h4
    have hpp : parsePrefix buf = .error e := by
      rw [parsePrefix_eq, hm]
      simp only [ok_bind]
      rw [getU32E_ok_of buf 4 n hsc]
      simp only [ok_bind]
      rw [hsh]
      rfl
    rw [parseMbeFile, hpp]
  · intro buf start m hfind hlen
    simp only [chnkPhase, hfind]
    rw [getU32E_oob buf (m + 4) (by omega)]
    rfl
  · intro buf n hEnd hdrs e h4 hsc hsh hch
    have hm := checkMagic_of_take buf h4
    have hpp : parsePrefix buf = .error e := by
      rw [parsePrefix_eq, hm]
      simp only [ok_bind]
      rw [getU32E_ok_of buf 4 n hsc]
      simp only [ok_bind]
      rw [hsh]
      simp only [ok_bind]
      rw [hch]
      rfl
    rw [parseMbeFile, hpp]
  · intro buf e
    constructor
    · intro h
      rw [parseMbeFile] at h
      rcases hp : parsePrefix buf with e' | x
      · rw [hp] at h
        cases h
        rfl
      · rw [hp] at h
        cases h
    · intro h
      rw [parseMbeFile, h]
  · intro buf hdrs hEnd m h
    rw [parseMbeFile, h]

/-- Witness for C3's amended contract at concrete buffers: a 5-byte buffer
with wrong leading bytes yields the invalid-magic error; the 2-byte proper
prefix of `"EXPA"` and a 7-byte buffer too short for the sheet count both
yield `RangeError`; a sheet whose first column tag is 5 yields the
unknown-column-type error from `parseMbeFile`; a CHNK block too short for its
entry count yields `RangeError`; and the 8-byte empty container parses
through the total materialisation of its successful prefix. -/
theorem c3_error_contract_witness :
    parseMbeFile [0, 0, 0, 0, 0] = .error .invalidMagic ∧
    parseMbeFile [69, 88] = .error .rangeError ∧
    parseMbeFile [69, 88, 80, 65, 0, 0, 0] = .error .rangeError ∧
    parseMbeFile
        [69, 88, 80, 65, 1, 0, 0, 0, 0, 0, 0, 0, 1, 0, 0, 0, 5, 0, 0, 0] =
      .error (.unknownColumnType 5 [] 0) ∧
    chnkPhase [67, 72, 78, 75, 9] 0 = .error .rangeError ∧
    parseMbeFile [69, 88, 80, 65, 0, 0, 0, 0] =
      .ok { sheets := materialiseSheets [69, 88, 80, 65, 0, 0, 0, 0] [] [] 8 } := by
  obtain ⟨h1, h2, h3, _, _, _, _, h8, h9, _, _, h12⟩ := c3_error_contract
  exact ⟨h1 [0, 0, 0, 0, 0] (by decide) (by decide),
    h2 [69, 88] (by decide) (by decide),
    h3 [69, 88, 80, 65, 0, 0, 0] (by decide) (by decide),
    h8 [69, 88, 80, 65, 1, 0, 0, 0, 0, 0, 0, 0, 1, 0, 0, 0, 5, 0, 0, 0] 1
      (.unknownColumnType 5 [] 0) (by decide) (by decide) (by rfl),
    h9 [67, 72, 78, 75, 9] 0 0 (by decide) (by decide),
    h12 [69, 88, 80, 65, 0, 0, 0, 0] [] 8 [] (by rfl)⟩
